import Mathlib

/-!
Verification development for the BetterQuestingTools repository.

The Rust sources are embedded shallowly: `serde_json::Value` becomes the
inductive `Json`, `serde_json::Map` becomes an insertion-ordered association
list (the `preserve_order` representation; verdicts below are chosen so that
they do not depend on the map iteration order), `f64` arithmetic is modelled
over `ℚ`, and machine integers are modelled as `Int`/`Nat` with explicit
wrapping where the source casts.  Fallible Rust functions return `Except`.
-/

namespace BQ

/-- Shallow model of `serde_json::Value`.  JSON numbers are modelled as
integers: every numeric literal appearing in the claims is a small integer,
and the source only ever inspects numbers through `as_i64`. -/
inductive Json where
  | null : Json
  | bool (b : Bool) : Json
  | num (n : Int) : Json
  | str (s : String) : Json
  | arr (xs : List Json) : Json
  | obj (kvs : List (String × Json)) : Json
deriving Repr

mutual
/-- Boolean equality on `Json` (decidable equality is not derivable for this
nested inductive, so it is built by hand). -/
def jsonBeq : Json → Json → Bool
  | .null, .null => true
  | .bool a, .bool b => a == b
  | .num a, .num b => a == b
  | .str a, .str b => a == b
  | .arr a, .arr b => jsonListBeq a b
  | .obj a, .obj b => jsonKvsBeq a b
  | _, _ => false

/-- Boolean equality on lists of `Json`. -/
def jsonListBeq : List Json → List Json → Bool
  | [], [] => true
  | x :: xs, y :: ys => jsonBeq x y && jsonListBeq xs ys
  | _, _ => false

/-- Boolean equality on association lists of `Json`. -/
def jsonKvsBeq : List (String × Json) → List (String × Json) → Bool
  | [], [] => true
  | (k1, v1) :: xs, (k2, v2) :: ys => k1 == k2 && jsonBeq v1 v2 && jsonKvsBeq xs ys
  | _, _ => false
end

mutual
theorem jsonBeq_refl : ∀ a : Json, jsonBeq a a = true
  | .null => rfl
  | .bool a => by simp [jsonBeq]
  | .num a => by simp [jsonBeq]
  | .str a => by simp [jsonBeq]
  | .arr xs => by simp [jsonBeq, jsonListBeq_refl xs]
  | .obj kvs => by simp [jsonBeq, jsonKvsBeq_refl kvs]

theorem jsonListBeq_refl : ∀ xs : List Json, jsonListBeq xs xs = true
  | [] => rfl
  | x :: xs => by simp [jsonListBeq, jsonBeq_refl x, jsonListBeq_refl xs]

theorem jsonKvsBeq_refl : ∀ kvs : List (String × Json), jsonKvsBeq kvs kvs = true
  | [] => rfl
  | (k, v) :: kvs => by simp [jsonKvsBeq, jsonBeq_refl v, jsonKvsBeq_refl kvs]
end

mutual
theorem jsonBeq_sound : ∀ a b : Json, jsonBeq a b = true → a = b
  | .null, b, h => by cases b <;> first | rfl | simp [jsonBeq] at h
  | .bool a, b, h => by
    cases b <;> simp [jsonBeq] at h
    simp [h]
  | .num a, b, h => by
    cases b <;> simp [jsonBeq] at h
    simp [h]
  | .str a, b, h => by
    cases b <;> simp [jsonBeq] at h
    simp [h]
  | .arr xs, b, h => by
    cases b with
    | arr ys => exact congrArg Json.arr (jsonListBeq_sound xs ys (by simpa [jsonBeq] using h))
    | _ => simp [jsonBeq] at h
  | .obj kvs, b, h => by
    cases b with
    | obj kvs2 => exact congrArg Json.obj (jsonKvsBeq_sound kvs kvs2 (by simpa [jsonBeq] using h))
    | _ => simp [jsonBeq] at h

theorem jsonListBeq_sound : ∀ xs ys : List Json, jsonListBeq xs ys = true → xs = ys
  | [], [], _ => rfl
  | [], _ :: _, h => by simp [jsonListBeq] at h
  | _ :: _, [], h => by simp [jsonListBeq] at h
  | x :: xs, y :: ys, h => by
    have h' := h
    simp only [jsonListBeq, Bool.and_eq_true] at h'
    exact congrArg₂ List.cons (jsonBeq_sound x y h'.1) (jsonListBeq_sound xs ys h'.2)

theorem jsonKvsBeq_sound :
    ∀ xs ys : List (String × Json), jsonKvsBeq xs ys = true → xs = ys
  | [], [], _ => rfl
  | [], _ :: _, h => by simp [jsonKvsBeq] at h
  | _ :: _, [], h => by simp [jsonKvsBeq] at h
  | (k1, v1) :: xs, (k2, v2) :: ys, h => by
    have h' := h
    simp only [jsonKvsBeq, Bool.and_eq_true, beq_iff_eq] at h'
    have hk : k1 = k2 := h'.1.1
    have hv : v1 = v2 := jsonBeq_sound v1 v2 h'.1.2
    have ht : xs = ys := jsonKvsBeq_sound xs ys h'.2
    simp [hk, hv, ht]
end

instance : DecidableEq Json := fun a b =>
  decidable_of_iff (jsonBeq a b = true)
    ⟨jsonBeq_sound a b, fun h => h ▸ jsonBeq_refl a⟩

/-- Model of `serde_json::Map::insert` with the `preserve_order`
representation: if the key is present its value is replaced in place,
otherwise the binding is appended at the end. -/
def mapInsert : List (String × Json) → String → Json → List (String × Json)
  | [], k, v => [(k, v)]
  | (k0, v0) :: rest, k, v =>
    if k0 = k then (k0, v) :: rest else (k0, v0) :: mapInsert rest k v

/-- Model of `serde_json::Map::get`. -/
def mapGet : List (String × Json) → String → Option Json
  | [], _ => none
  | (k0, v0) :: rest, k => if k0 = k then some v0 else mapGet rest k

/-- Characters of the substring of `k` before the last colon, or `none`
when `k` contains no colon.  Mirrors `k.rfind(':')` followed by `k[..pos]`
in `nbt_norm.rs` (the colon is ASCII, so byte and character positions
coincide). -/
def stripChars : List Char → Option (List Char)
  | [] => none
  | c :: rest =>
    match stripChars rest with
    | some r => some (c :: r)
    | none => if c = ':' then some [] else none

/-- Key-suffix stripping from `nbt_norm.rs::normalize_map`: retain only the
part of the key before the last `:`; keys without `:` are unchanged. -/
def stripKey (k : String) : String :=
  match stripChars k.data with
  | some r => String.mk r
  | none => k

/-- Model of Rust `str::parse::<usize>()` on a 64-bit target: an optional
leading `+` followed by one or more ASCII digits, failing on a value beyond
`usize::MAX` (the Rust parse returns `Err(PosOverflow)` there). -/
def parseUsize? (s : String) : Option Nat :=
  let cs := match s.data with
    | '+' :: rest => rest
    | cs => cs
  if cs = [] then none
  else if cs.all (fun c => c.isDigit) then
    let n := cs.foldl (fun acc c => acc * 10 + (c.toNat - '0'.toNat)) 0
    if n < 2 ^ 64 then some n else none
  else none

mutual
/-- Model of Rust `str::to_uppercase` restricted to ASCII (every string it
is compared against in the source is ASCII; `Char.toUpper` maps exactly the
ASCII lowercase letters). -/
def strToUpper (s : String) : String := ⟨s.data.map Char.toUpper⟩

/-- Model of Rust `str::ends_with` (suffix test on the character list). -/
def strEndsWith (s p : String) : Bool := p.data.isSuffixOf s.data

/-- Model of `nbt_norm.rs::normalize_value`: objects go through
`normalize_map`, arrays are normalized element-wise, scalars are unchanged. -/
def normalize_value : Json → Json
  | .null => .null
  | .bool b => .bool b
  | .num n => .num n
  | .str s => .str s
  | .arr xs => .arr (normalize_list xs)
  | .obj kvs => .obj (normalize_map kvs [])

/-- Element-wise normalization of an array (the `map` in the `Array` arm of
`normalize_value`). -/
def normalize_list : List Json → List Json
  | [] => []
  | x :: xs => normalize_value x :: normalize_list xs

/-- Model of `nbt_norm.rs::normalize_map`: fold over the input object,
inserting each value (recursively normalized) under the stripped key.  The
`numeric_keys`/`all_numeric` computation in the source has no effect on the
returned map (the branch body is empty), so it is omitted here. -/
def normalize_map : List (String × Json) → List (String × Json) → List (String × Json)
  | [], acc => acc
  | (k, v) :: rest, acc =>
    normalize_map rest (mapInsert acc (stripKey k) (normalize_value v))
end

/-- Insert into a `BTreeMap<usize, Value>` modelled as a sorted association
list: an existing key has its value replaced. -/
def btreeInsert : List (Nat × Json) → Nat → Json → List (Nat × Json)
  | [], k, v => [(k, v)]
  | (k0, v0) :: rest, k, v =>
    if k < k0 then (k, v) :: (k0, v0) :: rest
    else if k = k0 then (k, v) :: rest
    else (k0, v0) :: btreeInsert rest k v

/-- Model of `nbt_norm.rs::map_to_array_if_numeric`: if every key of the map
parses as a `usize`, return the values ordered by those indices ascending
(via a `BTreeMap`), otherwise `None`.  An empty collection yields `None`. -/
def map_to_array_if_numeric (m : List (String × Json)) : Option (List Json) :=
  let rec go : List (String × Json) → List (Nat × Json) → Option (List (Nat × Json))
    | [], acc => some acc
    | (k, v) :: rest, acc =>
      match parseUsize? k with
      | some idx => go rest (btreeInsert acc idx v)
      | none => none
  match go m [] with
  | none => none
  | some [] => none
  | some numeric => some (numeric.map Prod.snd)

/-! ## QuestId (`quest_id.rs`) -/

/-- Model of `quest_id.rs::QuestId`: a single unsigned 64-bit value, stored
as a `Nat` (always below `2^64` by construction). -/
structure QId where
  val : Nat
deriving DecidableEq, Repr

/-- Two's-complement wrap of an integer into the `i32` range, modelling a
Rust `as i32` cast. -/
def wrapI32 (n : Int) : Int := (n + 2 ^ 31) % 2 ^ 32 - 2 ^ 31

/-- Reinterpret an `i32` value as a `u32`, modelling `as u32`. -/
def toU32 (n : Int) : Nat := (n % 2 ^ 32).toNat

/-- Model of `QuestId::from_parts(high, low)`: the high half is sign-extended
to 64 bits and shifted, the low half zero-extended; for arguments in the
`i32` range this equals `((high as i64 as u64) << 32) | (low as u32 as u64)`. -/
def QId.from_parts (high low : Int) : QId :=
  ⟨toU32 high * 2 ^ 32 + toU32 low⟩

/-- Model of `QuestId::as_u64`. -/
def QId.as_u64 (q : QId) : Nat := q.val

/-! ## Error taxonomy (`error.rs`) -/

/-- Model of `error.rs::ParseError`.  The payloads of `Json`/`Io` wrapped
errors are not inspected anywhere in the source, so they are dropped;
`alpha` is an `f64` in the source, modelled as `ℚ`. -/
inductive PErr where
  | jsonErr : PErr
  | ioErr : PErr
  | invalidFormat (msg : String) : PErr
  | duplicateQuestId (path : String) : PErr
  | missingQuestReference (questline : Nat) (quest_id : QId) : PErr
  | cycleDetected (cycle : List QId) : PErr
  | alphaOutOfRange (value : ℚ) : PErr
  | other (msg : String) : PErr
deriving DecidableEq, Repr

/-! ## Typed model (`model.rs` data types) -/

/-- Model of `model.rs::ItemStack`. -/
structure ItemStack where
  id : String
  damage : Option Int
  count : Option Int
  oredict : Option String
  extra : List (String × Json)
deriving DecidableEq, Repr

/-- Model of `model.rs::Task`. -/
structure Task where
  index : Option Nat
  task_id : String
  required_items : List ItemStack
  ignore_nbt : Option Bool
  partial_match : Option Bool
  auto_consume : Option Bool
  consume : Option Bool
  group_detect : Option Bool
  options : List (String × Json)
deriving DecidableEq, Repr

/-- Model of `model.rs::Reward`. -/
structure Reward where
  index : Option Nat
  reward_id : String
  items : List ItemStack
  choices : List ItemStack
  ignore_disabled : Option Bool
  extra : List (String × Json)
deriving DecidableEq, Repr

/-- Model of `model.rs::QuestProperties`. -/
structure QuestProperties where
  name : String
  desc : Option String
  icon : Option ItemStack
  is_main : Option Bool
  is_silent : Option Bool
  auto_claim : Option Bool
  global_share : Option Bool
  is_global : Option Bool
  locked_progress : Option Int
  repeat_time : Option Int
  repeat_relative : Option Bool
  simultaneous : Option Bool
  party_single_reward : Option Bool
  quest_logic : Option String
  task_logic : Option String
  visibility : Option String
  snd_complete : Option String
  snd_update : Option String
  extra : List (String × Json)
deriving DecidableEq, Repr

/-- Model of `model.rs::Quest`. -/
structure Quest where
  id : QId
  properties : Option QuestProperties
  tasks : List Task
  rewards : List Reward
  prerequisites : List QId
  required_prerequisites : List QId
  optional_prerequisites : List QId
deriving DecidableEq, Repr

/-- Model of `model.rs::QuestLineEntry`. -/
structure QuestLineEntry where
  index : Option Nat
  quest_id : QId
  x : Option Int
  y : Option Int
  size_x : Option Int
  size_y : Option Int
  extra : List (String × Json)
deriving DecidableEq, Repr

/-- Model of `model.rs::QuestLine`. -/
structure QuestLine where
  id : QId
  properties : Option QuestProperties
  entries : List QuestLineEntry
  extra : List (String × Json)
deriving DecidableEq, Repr

/-- Model of `model.rs::QuestSettings`. -/
structure QuestSettings where
  version : Option String
  extra : List (String × Json)
deriving DecidableEq, Repr

/-- Model of `model.rs::QuestDatabase`.  The two `HashMap`s are modelled as
association lists in insertion order (the code only inserts, looks up and
iterates; iteration order of a Rust `HashMap` is unspecified, and every
verdict below is independent of it). -/
structure QuestDatabase where
  settings : Option QuestSettings
  quests : List (QId × Quest)
  questlines : List (QId × QuestLine)
  questline_order : List QId
deriving DecidableEq, Repr

/-! ## Raw model (`model_raw.rs` data types) -/

/-- Model of `model_raw.rs::RawQuestProperties` (serde field names are given
in the deserializer below). -/
structure RawQuestProperties where
  name : String
  desc : Option String
  icon : Option Json
  is_main : Option Bool
  is_silent : Option Bool
  auto_claim : Option Bool
  global_share : Option Bool
  is_global : Option Bool
  locked_progress : Option Int
  repeat_time : Option Int
  repeat_relative : Option Bool
  simultaneous : Option Bool
  party_single_reward : Option Bool
  quest_logic : Option String
  task_logic : Option String
  visibility : Option String
  snd_complete : Option String
  snd_update : Option String
  extra : List (String × Json)
deriving DecidableEq, Repr

/-- Model of `model_raw.rs::RawPropertiesWrapper`. -/
structure RawPropertiesWrapper where
  betterquesting : Option RawQuestProperties
  extra : List (String × Json)
deriving DecidableEq, Repr

/-- Model of `model_raw.rs::RawTasksWrapper` (untagged `Object`/`Array`). -/
inductive RawTasksWrapper where
  | object (m : List (String × Json)) : RawTasksWrapper
  | array (xs : List Json) : RawTasksWrapper
deriving DecidableEq, Repr

/-- Model of `model_raw.rs::RawRewardsWrapper` (untagged `Object`/`Array`). -/
inductive RawRewardsWrapper where
  | object (m : List (String × Json)) : RawRewardsWrapper
  | array (xs : List Json) : RawRewardsWrapper
deriving DecidableEq, Repr

/-- Model of `model_raw.rs::RawQuestRefs` (untagged `Object`/`Array`). -/
inductive RawQuestRefs where
  | object (m : List (String × Json)) : RawQuestRefs
  | array (xs : List Json) : RawQuestRefs
deriving DecidableEq, Repr

/-- Model of `model_raw.rs::RawQuest`. -/
structure RawQuest where
  quest_id_high : Option Int
  quest_id_low : Option Int
  properties : Option RawPropertiesWrapper
  tasks : Option RawTasksWrapper
  rewards : Option RawRewardsWrapper
  pre_requisites : Option RawQuestRefs
  optional_pre_requisites : Option RawQuestRefs
  extra : List (String × Json)
deriving DecidableEq, Repr

/-! ## Serde deserialization models

Each Rust `#[derive(Deserialize)]` impl is modelled as a function
`Json → Except Unit X`; the serde error message is dropped (`Unit`), since
the source only ever branches on success vs failure and wraps failures into
`ParseError::Json`. -/

/-- Model of `model_raw.rs::bool_from_int`: real booleans pass through,
the integers `0`/`1` map to `false`/`true`, other integers and every
non-boolean, non-integer, non-null value (including the strings
`"0"`/`"1"`) are rejected; `null` means absent. -/
def bool_from_int : Json → Except Unit (Option Bool)
  | .bool b => .ok (some b)
  | .num 0 => .ok (some false)
  | .num 1 => .ok (some true)
  | .num _ => .error ()
  | .null => .ok none
  | _ => .error ()

/-- Field with `deserialize_with = "bool_from_int"` and `default`: a missing
field is `None`, a present one goes through `bool_from_int`. -/
def deBoolFromInt : Option Json → Except Unit (Option Bool)
  | none => .ok none
  | some v => bool_from_int v

/-- Required serde `String` field. -/
def deStr : Option Json → Except Unit String
  | some (.str s) => .ok s
  | _ => .error ()

/-- Serde `Option<String>` field. -/
def deOptStr : Option Json → Except Unit (Option String)
  | none => .ok none
  | some .null => .ok none
  | some (.str s) => .ok (some s)
  | some _ => .error ()

/-- Serde `Option<i64>` field.  JSON numbers are modelled as unbounded
integers; all integers appearing in the claims are far inside the `i64`
range, where the Rust deserializer succeeds. -/
def deOptI64 : Option Json → Except Unit (Option Int)
  | none => .ok none
  | some .null => .ok none
  | some (.num n) => .ok (some n)
  | some _ => .error ()

/-- Serde `Option<i32>` field, with the `i32` range check serde performs. -/
def deOptI32 : Option Json → Except Unit (Option Int)
  | none => .ok none
  | some .null => .ok none
  | some (.num n) =>
    if -(2 ^ 31) ≤ n ∧ n < 2 ^ 31 then .ok (some n) else .error ()
  | some _ => .error ()

/-- Serde `Option<usize>` field (non-negative; the model is unbounded
above, matching the source for all sizes in the claims). -/
def deOptNat : Option Json → Except Unit (Option Nat)
  | none => .ok none
  | some .null => .ok none
  | some (.num n) => if 0 ≤ n then .ok (some n.toNat) else .error ()
  | some _ => .error ()

/-- Plain serde `Option<bool>` field (no integer coercion). -/
def deOptBool : Option Json → Except Unit (Option Bool)
  | none => .ok none
  | some .null => .ok none
  | some (.bool b) => .ok (some b)
  | some _ => .error ()

/-- Serde `Option<serde_json::Value>` field. -/
def deOptValue : Option Json → Except Unit (Option Json)
  | none => .ok none
  | some .null => .ok none
  | some v => .ok (some v)

/-- The flattened `extra` map of a struct: all keys that are not consumed by
a named field. -/
def extraOf (m : List (String × Json)) (known : List String) : List (String × Json) :=
  m.filter (fun p => p.1 ∉ known)

/-- Known serde keys of `ItemStack`. -/
def itemStackKeys : List String := ["id", "damage", "count", "oredict"]

/-- Model of `Deserialize for model.rs::ItemStack`. -/
def itemStackFromValue : Json → Except Unit ItemStack
  | .obj m => do
    let id ← deStr (mapGet m "id")
    let damage ← deOptI32 (mapGet m "damage")
    let count ← deOptI32 (mapGet m "count")
    let oredict ← deOptStr (mapGet m "oredict")
    .ok ⟨id, damage, count, oredict, extraOf m itemStackKeys⟩
  | _ => .error ()

/-- Serde `Vec<ItemStack>` field with `#[serde(default)]`. -/
def deItems : Option Json → Except Unit (List ItemStack)
  | none => .ok []
  | some (.arr xs) => xs.mapM itemStackFromValue
  | some _ => .error ()

/-- Serde `Option<ItemStack>` field. -/
def deOptItem : Option Json → Except Unit (Option ItemStack)
  | none => .ok none
  | some .null => .ok none
  | some v => do .ok (some (← itemStackFromValue v))

/-- Known serde keys of `Task`. -/
def taskKeys : List String :=
  ["index", "task_id", "required_items", "ignore_nbt", "partial_match",
   "auto_consume", "consume", "group_detect"]

/-- Model of `Deserialize for model.rs::Task` (field names are the Rust
field names; `model.rs` declares no renames on `Task`). -/
def taskFromValue : Json → Except Unit Task
  | .obj m => do
    let index ← deOptNat (mapGet m "index")
    let task_id ← deStr (mapGet m "task_id")
    let required_items ← deItems (mapGet m "required_items")
    let ignore_nbt ← deOptBool (mapGet m "ignore_nbt")
    let partial_match ← deOptBool (mapGet m "partial_match")
    let auto_consume ← deOptBool (mapGet m "auto_consume")
    let consume ← deOptBool (mapGet m "consume")
    let group_detect ← deOptBool (mapGet m "group_detect")
    .ok ⟨index, task_id, required_items, ignore_nbt, partial_match,
         auto_consume, consume, group_detect, extraOf m taskKeys⟩
  | _ => .error ()

/-- Known serde keys of `Reward`. -/
def rewardKeys : List String :=
  ["index", "reward_id", "items", "choices", "ignore_disabled"]

/-- Model of `Deserialize for model.rs::Reward`. -/
def rewardFromValue : Json → Except Unit Reward
  | .obj m => do
    let index ← deOptNat (mapGet m "index")
    let reward_id ← deStr (mapGet m "reward_id")
    let items ← deItems (mapGet m "items")
    let choices ← deItems (mapGet m "choices")
    let ignore_disabled ← deOptBool (mapGet m "ignore_disabled")
    .ok ⟨index, reward_id, items, choices, ignore_disabled, extraOf m rewardKeys⟩
  | _ => .error ()

/-- Known serde keys of `QuestProperties` (plain Rust field names). -/
def questPropertiesKeys : List String :=
  ["name", "desc", "icon", "is_main", "is_silent", "auto_claim",
   "global_share", "is_global", "locked_progress", "repeat_time",
   "repeat_relative", "simultaneous", "party_single_reward", "quest_logic",
   "task_logic", "visibility", "snd_complete", "snd_update"]

/-- Model of `Deserialize for model.rs::QuestProperties` (used by the
questline loader); its boolean fields are plain `Option<bool>`. -/
def questPropertiesFromValue : Json → Except Unit QuestProperties
  | .obj m => do
    let name ← deStr (mapGet m "name")
    let desc ← deOptStr (mapGet m "desc")
    let icon ← deOptItem (mapGet m "icon")
    let is_main ← deOptBool (mapGet m "is_main")
    let is_silent ← deOptBool (mapGet m "is_silent")
    let auto_claim ← deOptBool (mapGet m "auto_claim")
    let global_share ← deOptBool (mapGet m "global_share")
    let is_global ← deOptBool (mapGet m "is_global")
    let locked_progress ← deOptI32 (mapGet m "locked_progress")
    let repeat_time ← deOptI32 (mapGet m "repeat_time")
    let repeat_relative ← deOptBool (mapGet m "repeat_relative")
    let simultaneous ← deOptBool (mapGet m "simultaneous")
    let party_single_reward ← deOptBool (mapGet m "party_single_reward")
    let quest_logic ← deOptStr (mapGet m "quest_logic")
    let task_logic ← deOptStr (mapGet m "task_logic")
    let visibility ← deOptStr (mapGet m "visibility")
    let snd_complete ← deOptStr (mapGet m "snd_complete")
    let snd_update ← deOptStr (mapGet m "snd_update")
    .ok ⟨name, desc, icon, is_main, is_silent, auto_claim, global_share,
         is_global, locked_progress, repeat_time, repeat_relative,
         simultaneous, party_single_reward, quest_logic, task_logic,
         visibility, snd_complete, snd_update, extraOf m questPropertiesKeys⟩
  | _ => .error ()

/-- Known serde keys of `RawQuestProperties` (after `rename` attributes). -/
def rawQuestPropertiesKeys : List String :=
  ["name", "desc", "icon", "isMain", "isSilent", "autoClaim", "globalShare",
   "isGlobal", "lockedProgress", "repeatTime", "repeat_relative",
   "simultaneous", "partySingleReward", "questLogic", "taskLogic",
   "visibility", "snd_complete", "snd_update"]

/-- Model of `Deserialize for model_raw.rs::RawQuestProperties`: `name` is
required, the flag fields go through `bool_from_int`, everything unknown is
collected into `extra`. -/
def rawQuestPropertiesFromValue : Json → Except Unit RawQuestProperties
  | .obj m => do
    let name ← deStr (mapGet m "name")
    let desc ← deOptStr (mapGet m "desc")
    let icon ← deOptValue (mapGet m "icon")
    let is_main ← deBoolFromInt (mapGet m "isMain")
    let is_silent ← deBoolFromInt (mapGet m "isSilent")
    let auto_claim ← deBoolFromInt (mapGet m "autoClaim")
    let global_share ← deBoolFromInt (mapGet m "globalShare")
    let is_global ← deBoolFromInt (mapGet m "isGlobal")
    let locked_progress ← deOptI32 (mapGet m "lockedProgress")
    let repeat_time ← deOptI32 (mapGet m "repeatTime")
    let repeat_relative ← deBoolFromInt (mapGet m "repeat_relative")
    let simultaneous ← deBoolFromInt (mapGet m "simultaneous")
    let party_single_reward ← deBoolFromInt (mapGet m "partySingleReward")
    let quest_logic ← deOptStr (mapGet m "questLogic")
    let task_logic ← deOptStr (mapGet m "taskLogic")
    let visibility ← deOptStr (mapGet m "visibility")
    let snd_complete ← deOptStr (mapGet m "snd_complete")
    let snd_update ← deOptStr (mapGet m "snd_update")
    .ok ⟨name, desc, icon, is_main, is_silent, auto_claim, global_share,
         is_global, locked_progress, repeat_time, repeat_relative,
         simultaneous, party_single_reward, quest_logic, task_logic,
         visibility, snd_complete, snd_update, extraOf m rawQuestPropertiesKeys⟩
  | _ => .error ()

/-- Model of `Deserialize for model_raw.rs::RawPropertiesWrapper`. -/
def rawPropertiesWrapperFromValue : Json → Except Unit RawPropertiesWrapper
  | .obj m => do
    let bq ← match mapGet m "betterquesting" with
      | none => pure none
      | some .null => pure none
      | some v => do pure (some (← rawQuestPropertiesFromValue v))
    .ok ⟨bq, extraOf m ["betterquesting"]⟩
  | _ => .error ()

/-- Model of the untagged `Deserialize for RawTasksWrapper`: an object maps
to the `Object` variant, an array to `Array`, anything else fails. -/
def rawTasksWrapperFromValue : Json → Except Unit RawTasksWrapper
  | .obj m => .ok (.object m)
  | .arr xs => .ok (.array xs)
  | _ => .error ()

/-- Model of the untagged `Deserialize for RawRewardsWrapper`. -/
def rawRewardsWrapperFromValue : Json → Except Unit RawRewardsWrapper
  | .obj m => .ok (.object m)
  | .arr xs => .ok (.array xs)
  | _ => .error ()

/-- Model of the untagged `Deserialize for RawQuestRefs`. -/
def rawQuestRefsFromValue : Json → Except Unit RawQuestRefs
  | .obj m => .ok (.object m)
  | .arr xs => .ok (.array xs)
  | _ => .error ()

/-- Known serde keys of `RawQuest` (after `rename` attributes). -/
def rawQuestKeys : List String :=
  ["questIDHigh", "questIDLow", "properties", "tasks", "rewards",
   "preRequisites", "optionalPreRequisites"]

/-- Model of `Deserialize for model_raw.rs::RawQuest`; also models
`serde_json::from_str::<RawQuest>` applied to the text of a quest file whose
parsed JSON is the given value. -/
def rawQuestFromValue : Json → Except Unit RawQuest
  | .obj m => do
    let hi ← deOptI64 (mapGet m "questIDHigh")
    let lo ← deOptI64 (mapGet m "questIDLow")
    let props ← match mapGet m "properties" with
      | none => pure none
      | some .null => pure none
      | some v => do pure (some (← rawPropertiesWrapperFromValue v))
    let tasks ← match mapGet m "tasks" with
      | none => pure none
      | some .null => pure none
      | some v => do pure (some (← rawTasksWrapperFromValue v))
    let rewards ← match mapGet m "rewards" with
      | none => pure none
      | some .null => pure none
      | some v => do pure (some (← rawRewardsWrapperFromValue v))
    let pre ← match mapGet m "preRequisites" with
      | none => pure none
      | some .null => pure none
      | some v => do pure (some (← rawQuestRefsFromValue v))
    let optPre ← match mapGet m "optionalPreRequisites" with
      | none => pure none
      | some .null => pure none
      | some v => do pure (some (← rawQuestRefsFromValue v))
    .ok ⟨hi, lo, props, tasks, rewards, pre, optPre, extraOf m rawQuestKeys⟩
  | _ => .error ()

/-! ## Quest loading (`model.rs::Quest::from_raw`) -/

/-- Model of the local `convert_raw_props` in `Quest::from_raw`; the `icon`
field is always `None` in the source (marked TODO there). -/
def convert_raw_props (props : RawQuestProperties) : QuestProperties :=
  ⟨props.name, props.desc, none, props.is_main, props.is_silent,
   props.auto_claim, props.global_share, props.is_global,
   props.locked_progress, props.repeat_time, props.repeat_relative,
   props.simultaneous, props.party_single_reward, props.quest_logic,
   props.task_logic, props.visibility, props.snd_complete, props.snd_update,
   props.extra⟩

/-- The `normalized_extra_opt` binding of `Quest::from_raw`: the normalized
view of the unmatched top-level fields, present when `raw.extra` is
non-empty. -/
def normalizedExtraOpt (raw : RawQuest) : Option (List (String × Json)) :=
  if raw.extra = [] then none
  else
    match normalize_value (.obj raw.extra) with
    | .obj o => some o
    | _ => none

/-- Resolution of the inner `betterquesting` properties object inside a
normalized map: prefer the `betterquesting` key, then the first entry.
Shared tail of the two fallback branches in `Quest::from_raw`. -/
def propsFromNormalizedObj (o : List (String × Json)) : Option QuestProperties :=
  match mapGet o "betterquesting" with
  | some bqv =>
    match rawQuestPropertiesFromValue (normalize_value bqv) with
    | .ok rp => some (convert_raw_props rp)
    | .error _ => none
  | none =>
    match o with
    | [] => none
    | (_k, inner) :: _ =>
      match rawQuestPropertiesFromValue (normalize_value inner) with
      | .ok rp => some (convert_raw_props rp)
      | .error _ => none

/-- The `properties` resolution of `Quest::from_raw`: the typed wrapped
`betterquesting` block first, then the normalized wrapper extras, then a
`properties` key inside the normalized top-level extras. -/
def resolveProperties (raw : RawQuest) : Option QuestProperties :=
  match raw.properties with
  | some wrapper =>
    match wrapper.betterquesting with
    | some props => some (convert_raw_props props)
    | none =>
      if wrapper.extra = [] then none
      else
        match normalize_value (.obj wrapper.extra) with
        | .obj o => propsFromNormalizedObj o
        | _ => none
  | none =>
    match normalizedExtraOpt raw with
    | some o =>
      match mapGet o "properties" with
      | some prop_val =>
        match normalize_value prop_val with
        | .obj prop_obj => propsFromNormalizedObj prop_obj
        | _ => none
      | none => none
    | none => none

/-- The `tasks_wrapper_opt` binding of `Quest::from_raw`. -/
def tasksWrapperOpt (raw : RawQuest) (nx : Option (List (String × Json))) :
    Option RawTasksWrapper :=
  match raw.tasks with
  | some t => some t
  | none =>
    match nx with
    | some o =>
      match mapGet o "tasks" with
      | some (.arr arr) => some (.array arr)
      | some (.obj m) => some (.object m)
      | _ => none
    | none => none

/-- The `rewards_wrapper_opt` binding of `Quest::from_raw`. -/
def rewardsWrapperOpt (raw : RawQuest) (nx : Option (List (String × Json))) :
    Option RawRewardsWrapper :=
  match raw.rewards with
  | some r => some r
  | none =>
    match nx with
    | some o =>
      match mapGet o "rewards" with
      | some (.arr arr) => some (.array arr)
      | some (.obj m) => some (.object m)
      | _ => none
    | none => none

/-- The `Array` arm of task collection in `Quest::from_raw`: normalize each
element, keep those deserializing as `Task`, stamping the enumerate index. -/
def tasksFromArray (arr : List Json) : List Task :=
  arr.enum.filterMap fun p =>
    match taskFromValue (normalize_value p.2) with
    | .ok t => some { t with index := some p.1 }
    | .error _ => none

/-- Task collection in `Quest::from_raw`.  In the `Object` arm the source
normalizes the whole map and only collects tasks if the result is an array;
`normalize_value` never returns an array for an object input, so that arm
yields no tasks, which the model reproduces faithfully. -/
def parseTasksFromWrapper : Option RawTasksWrapper → List Task
  | none => []
  | some (.array arr) => tasksFromArray arr
  | some (.object m) =>
    match normalize_value (.obj m) with
    | .arr arr2 => tasksFromArray arr2
    | _ => []

/-- The `Array` arm of reward collection in `Quest::from_raw`. -/
def rewardsFromArray (arr : List Json) : List Reward :=
  arr.enum.filterMap fun p =>
    match rewardFromValue (normalize_value p.2) with
    | .ok r => some { r with index := some p.1 }
    | .error _ => none

/-- Reward collection in `Quest::from_raw` (same shape as the tasks). -/
def parseRewardsFromWrapper : Option RawRewardsWrapper → List Reward
  | none => []
  | some (.array arr) => rewardsFromArray arr
  | some (.object m) =>
    match normalize_value (.obj m) with
    | .arr arr2 => rewardsFromArray arr2
    | _ => []

/-- One prerequisite element of `parse_prereqs`: normalize it and, if it is
an object, read `questIDHigh`/`questIDLow` via `as_i64` (missing or
non-numeric means 0) with an `as i32` cast, then `QuestId::from_parts`. -/
def prereqIdOfValue (v : Json) : Option QId :=
  match normalize_value v with
  | .obj o =>
    let high := wrapI32 (match mapGet o "questIDHigh" with
      | some (.num n) => n
      | _ => 0)
    let low := wrapI32 (match mapGet o "questIDLow" with
      | some (.num n) => n
      | _ => 0)
    some (QId.from_parts high low)
  | _ => none

/-- Model of the local `parse_prereqs` in `Quest::from_raw`: both the
object and the array shape contribute their (normalized) object elements. -/
def parse_prereqs : Option RawQuestRefs → List QId
  | none => []
  | some (.object inner) => inner.filterMap fun p => prereqIdOfValue p.2
  | some (.array arr) => arr.filterMap prereqIdOfValue

/-- The `is_or` test in `Quest::from_raw`: `quest_logic`, uppercased, is one
of `OR`, `ONE_OF`, `ANY`, `XOR`. -/
def isOrLogic (props : Option QuestProperties) : Bool :=
  match props with
  | some p =>
    match p.quest_logic with
    | some s =>
      let u := strToUpper s
      u = "OR" || u = "ONE_OF" || u = "ANY" || u = "XOR"
    | none => false
  | none => false

/-- Model of `model.rs::Quest::from_raw`. -/
def Quest.from_raw (raw : RawQuest) : Except PErr Quest :=
  let id := QId.from_parts (wrapI32 (raw.quest_id_high.getD 0))
      (wrapI32 (raw.quest_id_low.getD 0))
  match resolveProperties raw with
  | none => .error (.invalidFormat "Quest is missing a name property")
  | some props =>
    let nx := normalizedExtraOpt raw
    let tasks := parseTasksFromWrapper (tasksWrapperOpt raw nx)
    let rewards := parseRewardsFromWrapper (rewardsWrapperOpt raw nx)
    let all_prereqs := parse_prereqs raw.pre_requisites
    let optional0 := parse_prereqs raw.optional_pre_requisites
    if optional0 ≠ [] then
      let optset := optional0.map QId.as_u64
      let required := all_prereqs.filter fun q => q.as_u64 ∉ optset
      .ok ⟨id, some props, tasks, rewards, required, required, optional0⟩
    else if isOrLogic (some props) then
      .ok ⟨id, some props, tasks, rewards, [], [], all_prereqs⟩
    else
      .ok ⟨id, some props, tasks, rewards, all_prereqs, all_prereqs, []⟩

/-! ## Database loading (`db.rs`) -/

/-- Generic lookup in a `HashMap` modelled as an association list. -/
def hmGet {α β : Type} [DecidableEq α] : List (α × β) → α → Option β
  | [], _ => none
  | (k0, v0) :: rest, k => if k0 = k then some v0 else hmGet rest k

/-- Model of `db.rs::QuestDataSource`.  `read_json` composes the trait
method `read_to_string` with `serde_json::from_str::<Value>`: the JSON text
grammar is external to the spec (the file system and `serde_json` are
out-of-scope collaborators), so files are modelled by their parsed values;
a read or parse failure is an error value. -/
structure QuestDataSource where
  list_dir : String → Except PErr (List String)
  is_dir : String → Bool
  is_file : String → Bool
  read_json : String → Except PErr Json

/-- Value of `v.as_str()`. -/
def jsonAsStr : Json → Option String
  | .str s => some s
  | _ => none

/-- The pattern `map.get(k).and_then(|x| x.as_i64()).map(|n| n as i32)`
from `db.rs`. -/
def getOptI32 (m : List (String × Json)) (k : String) : Option Int :=
  match mapGet m k with
  | some (.num n) => some (wrapI32 n)
  | _ => none

/-- The pattern above with `.unwrap_or(0)`. -/
def getI32OrZero (m : List (String × Json)) (k : String) : Int :=
  (getOptI32 m k).getD 0

/-- Settings extraction from an inner object: `version` from the `version`
key (when it is a string), everything except the `version` key into
`extra`. -/
def settingsFromInner (inner : List (String × Json)) : QuestSettings :=
  ⟨(mapGet inner "version").bind jsonAsStr, inner.filter fun p => p.1 ≠ "version"⟩

/-- Model of `db.rs::parse_settings_value`: prefer an object under
`properties` (its `betterquesting` key, else its first entry), then a
direct `betterquesting` object, then the top level; a non-object input
yields empty settings. -/
def parse_settings_value (v : Json) : QuestSettings :=
  match v with
  | .obj m =>
    let viaProps : Option QuestSettings :=
      match mapGet m "properties" with
      | some (.obj props_map) =>
        let inner_val : Json :=
          match mapGet props_map "betterquesting" with
          | some bq => bq
          | none =>
            match props_map with
            | (_, v0) :: _ => v0
            | [] => .null
        match inner_val with
        | .obj inner_map => some (settingsFromInner inner_map)
        | _ => none
      | _ => none
    match viaProps with
    | some s => s
    | none =>
      match mapGet m "betterquesting" with
      | some (.obj bq_map) => settingsFromInner bq_map
      | _ => settingsFromInner m
  | _ => ⟨none, []⟩

/-- Model of `db.rs::parse_settings_file_from_source`. -/
def parse_settings_file_from_source (source : QuestDataSource) (path : String) :
    Except PErr QuestSettings := do
  let v ← source.read_json path
  .ok (parse_settings_value v)

/-- Model of `db.rs::parse_questline_entry_file_from_source`: read the file,
normalize, and if the result is an object extract the referenced quest id
and the layout coordinates. -/
def parse_questline_entry_file_from_source (source : QuestDataSource) (p : String) :
    Except PErr (Option (QId × QuestLineEntry)) := do
  let v ← source.read_json p
  match normalize_value v with
  | .obj map =>
    let qid := QId.from_parts (getI32OrZero map "questIDHigh") (getI32OrZero map "questIDLow")
    .ok (some (qid, ⟨none, qid, getOptI32 map "x", getOptI32 map "y",
      getOptI32 map "sizeX", getOptI32 map "sizeY", []⟩))
  | _ => .ok none

/-- The entry-collection loop of `db.rs::parse_questline_dir_from_source`:
every `.json` file other than `QuestLine.json` contributes at most one
entry. -/
def collectQuestlineEntries (source : QuestDataSource) (path : String) :
    List String → Except PErr (List (QId × QuestLineEntry))
  | [] => .ok []
  | e :: rest => do
    let p := path ++ "/" ++ e
    if source.is_file p ∧ strEndsWith p ".json" then
      if e = "QuestLine.json" then collectQuestlineEntries source path rest
      else do
        match ← parse_questline_entry_file_from_source source p with
        | some pr => do
          let others ← collectQuestlineEntries source path rest
          .ok (pr :: others)
        | none => collectQuestlineEntries source path rest
    else collectQuestlineEntries source path rest

/-- The questline header parse inside `db.rs::parse_questline_dir_from_source`
(the body of the `QuestLine.json` branch, after normalization). -/
def questlineHeaderOfValue (v : Json) : Option QuestLine :=
  match normalize_value v with
  | .obj map =>
    let id := QId.from_parts (getI32OrZero map "questLineIDHigh")
      (getI32OrZero map "questLineIDLow")
    let props : Option QuestProperties :=
      match mapGet map "properties" with
      | some (.obj o) =>
        match mapGet o "betterquesting" with
        | some bqv => (questPropertiesFromValue (normalize_value bqv)).toOption
        | none =>
          match o with
          | (_, inner) :: _ => (questPropertiesFromValue (normalize_value inner)).toOption
          | [] => none
      | _ => none
    some ⟨id, props, [], []⟩
  | _ => none

/-- Model of `db.rs::parse_questline_dir_from_source`. -/
def parse_questline_dir_from_source (source : QuestDataSource) (path : String) :
    Except PErr (Option QuestLine × List (QId × QuestLineEntry)) := do
  let qline_json := path ++ "/QuestLine.json"
  let qline_opt ←
    if source.is_file qline_json then do
      let v ← source.read_json qline_json
      pure (questlineHeaderOfValue v)
    else pure none
  let entries ←
    if source.is_dir path then do
      let names ← source.list_dir path
      collectQuestlineEntries source path names
    else pure []
  .ok (qline_opt, entries)

/-- Stable insertion into a list sorted ascending by `as_u64` (equal keys
keep their first-seen order), modelling the stable `sort_by_key`. -/
def insertByKey (x : QId × QuestLineEntry) :
    List (QId × QuestLineEntry) → List (QId × QuestLineEntry)
  | [] => [x]
  | y :: ys => if x.1.as_u64 < y.1.as_u64 then x :: y :: ys else y :: insertByKey x ys

/-- Model of `sorted_entries.sort_by_key(|(qid, _)| qid.as_u64())` (a stable
ascending sort). -/
def sortEntriesByKey (l : List (QId × QuestLineEntry)) : List (QId × QuestLineEntry) :=
  l.foldl (fun acc x => insertByKey x acc) []

/-- The directory loop of `db.rs::parse_questlines_dir_from_source`:
each subdirectory contributes its header (if `QuestLine.json` parsed to an
object) with its entries sorted ascending by quest id; a repeated questline
id is fatal. -/
def processQuestlineDirs (source : QuestDataSource) (qlines_dir : String) :
    List String → List (QId × QuestLine) → Except PErr (List (QId × QuestLine))
  | [], acc => .ok acc
  | e :: rest, acc => do
    let path := qlines_dir ++ "/" ++ e
    if source.is_dir path then do
      let (qlopt, entries) ← parse_questline_dir_from_source source path
      match qlopt with
      | some ql =>
        let sorted := (sortEntriesByKey entries).map Prod.snd
        let ql2 : QuestLine := { ql with entries := ql.entries ++ sorted }
        if (hmGet acc ql2.id).isSome then .error (.duplicateQuestId path)
        else processQuestlineDirs source qlines_dir rest (acc ++ [(ql2.id, ql2)])
      | none => processQuestlineDirs source qlines_dir rest acc
    else processQuestlineDirs source qlines_dir rest acc

/-- Model of `db.rs::parse_questlines_dir_from_source`.  The explicit order
vector is never populated by the source, so the final order is the key set
of the questline map (iteration order of a `HashMap` in the source,
insertion order here). -/
def parse_questlines_dir_from_source (source : QuestDataSource) (qlines_dir : String) :
    Except PErr (List (QId × QuestLine) × List QId) := do
  let questlines ←
    if source.is_dir qlines_dir then do
      let names ← source.list_dir qlines_dir
      processQuestlineDirs source qlines_dir names []
    else pure []
  .ok (questlines, questlines.map Prod.fst)

/-- The body of one quest-file load in
`db.rs::parse_default_quests_dir_from_source`: the parsed file value is
deserialized straight into `RawQuest` — normalization is not applied at
this level — and converted with `Quest::from_raw`. -/
def questFromFileValue (v : Json) : Except PErr Quest :=
  match rawQuestFromValue v with
  | .error _ => .error .jsonErr
  | .ok raw => Quest.from_raw raw

/-- The quest-file loop of `db.rs::parse_default_quests_dir_from_source`:
each `.json` file contributes one quest; duplicate ids are fatal. -/
def loadQuests (source : QuestDataSource) (quests_dir : String) :
    List String → List (QId × Quest) → Except PErr (List (QId × Quest))
  | [], acc => .ok acc
  | e :: rest, acc => do
    let path := quests_dir ++ "/" ++ e
    if source.is_file path ∧ strEndsWith path ".json" then do
      let v ← source.read_json path
      let quest ← questFromFileValue v
      if (hmGet acc quest.id).isSome then .error (.duplicateQuestId path)
      else loadQuests source quests_dir rest (acc ++ [(quest.id, quest)])
    else loadQuests source quests_dir rest acc

/-- Reference validation for one questline: the first entry whose quest id
is not in the quest map is fatal. -/
def checkEntries (qlid : QId) (quests : List (QId × Quest)) :
    List QuestLineEntry → Except PErr Unit
  | [] => .ok ()
  | e :: rest =>
    if (hmGet quests e.quest_id).isSome then checkEntries qlid quests rest
    else .error (.missingQuestReference qlid.as_u64 e.quest_id)

/-- Reference validation over all questlines. -/
def checkRefs (quests : List (QId × Quest)) :
    List (QId × QuestLine) → Except PErr Unit
  | [] => .ok ()
  | (qlid, qline) :: rest => do
    checkEntries qlid quests qline.entries
    checkRefs quests rest

/-- The settings block of `parse_default_quests_dir_from_source`: the first
existing of `QuestSettings.json` and `QuestSettings` is parsed. -/
def loadSettingsStage (source : QuestDataSource) (root : String) :
    Except PErr (Option QuestSettings) :=
  if source.is_file (root ++ "/QuestSettings.json") then do
    let s ← parse_settings_file_from_source source (root ++ "/QuestSettings.json")
    pure (some s)
  else if source.is_file (root ++ "/QuestSettings") then do
    let s ← parse_settings_file_from_source source (root ++ "/QuestSettings")
    pure (some s)
  else pure none

/-- The quests block of `parse_default_quests_dir_from_source`: load every
`.json` file of `<root>/Quests` when that directory exists. -/
def loadQuestsStage (source : QuestDataSource) (root : String) :
    Except PErr (List (QId × Quest)) :=
  if source.is_dir (root ++ "/Quests") then do
    let names ← source.list_dir (root ++ "/Quests")
    loadQuests source (root ++ "/Quests") names []
  else pure []

/-- Model of `db.rs::parse_default_quests_dir_from_source`. -/
def parse_default_quests_dir_from_source (source : QuestDataSource) (root : String) :
    Except PErr QuestDatabase := do
  if ¬ source.is_dir root then .error (.invalidFormat ("not a dir: " ++ root))
  else do
    let settings ← loadSettingsStage source root
    let quests ← loadQuestsStage source root
    let (questlines, questline_order) ←
      parse_questlines_dir_from_source source (root ++ "/QuestLines")
    checkRefs quests questlines
    .ok ⟨settings, quests, questlines, questline_order⟩

/-! ## Importance analysis (`importance.rs`)

`f64` arithmetic is modelled over `ℚ`: the only irrational operation,
`f64::ln`, lives in the external float library and is taken as an explicit
function parameter (every claim instantiates `use_log = false`, where it is
never applied). -/

/-- Generic insertion (replace or append) into a `HashMap` modelled as an
association list. -/
def hmInsert {α β : Type} [DecidableEq α] : List (α × β) → α → β → List (α × β)
  | [], k, v => [(k, v)]
  | (k0, v0) :: rest, k, v =>
    if k0 = k then (k0, v) :: rest else (k0, v0) :: hmInsert rest k v

/-- Generic removal from a `HashMap` modelled as an association list. -/
def hmRemove {α β : Type} [DecidableEq α] : List (α × β) → α → List (α × β)
  | [], _ => []
  | (k0, v0) :: rest, k => if k0 = k then rest else (k0, v0) :: hmRemove rest k

/-- `dependents.entry(p).or_default().push(x)`. -/
def multiPush {α β : Type} [DecidableEq α] : List (α × List β) → α → β → List (α × List β)
  | [], k, x => [(k, [x])]
  | (k0, l) :: rest, k, x =>
    if k0 = k then (k0, l ++ [x]) :: rest else (k0, l) :: multiPush rest k x

/-- The XOR test of `compute_importance_scores`:
`quest_logic.eq_ignore_ascii_case("XOR")`. -/
def isXorQuest (quest : Quest) : Bool :=
  match quest.properties with
  | some props =>
    match props.quest_logic with
    | some logic => strToUpper logic = "XOR"
    | none => false
  | none => false

/-- Order-preserving deduplication by `as_u64` through a shared `seen` set
(modelled as the list of already-seen keys). -/
def dedupStep : List QId → List Nat → List QId × List Nat
  | [], seen => ([], seen)
  | p :: rest, seen =>
    if p.as_u64 ∈ seen then dedupStep rest seen
    else
      let (r, s) := dedupStep rest (p.as_u64 :: seen)
      (p :: r, s)

/-- `required_prerequisites` when non-empty, else the generic
`prerequisites` list. -/
def questRequiredBase (quest : Quest) : List QId :=
  if quest.required_prerequisites ≠ [] then quest.required_prerequisites
  else quest.prerequisites

/-- The deduplicated `(required, optionals)` pair of one quest; the
required list claims the keys first, exactly as in the source. -/
def questDedup (quest : Quest) : List QId × List QId :=
  let (required, seen) := dedupStep (questRequiredBase quest) []
  let (optionals, _) := dedupStep quest.optional_prerequisites seen
  (required, optionals)

/-- One iteration of the graph-construction loop of
`compute_importance_scores` over the pair `(adj, dependents)`. -/
def buildGraphStep (st : List (QId × List QId) × List (QId × List (QId × ℚ)))
    (p : QId × Quest) : List (QId × List QId) × List (QId × List (QId × ℚ)) :=
  let (adj, deps) := st
  if isXorQuest p.2 then (adj, deps)
  else
    let (required, optionals) := questDedup p.2
    let adj' := hmInsert adj p.1 (required ++ optionals)
    let deps' := required.foldl (fun d pr => multiPush d pr (p.1, (1 : ℚ))) deps
    let deps'' :=
      if optionals = [] then deps'
      else
        let w : ℚ := 1 / (optionals.length : ℚ)
        optionals.foldl (fun d pr => multiPush d pr (p.1, w)) deps'
    (adj', deps'')

/-- The adjacency (quest to its prerequisites) and dependents (prerequisite
to weighted dependents) maps of `compute_importance_scores`. -/
def buildGraph (quests : List (QId × Quest)) :
    List (QId × List QId) × List (QId × List (QId × ℚ)) :=
  quests.foldl buildGraphStep ([], [])

/-- The three colors of the cycle-detection DFS. -/
inductive Color where
  | white : Color
  | gray : Color
  | black : Color
deriving DecidableEq, Repr

/-- State threaded through `dfs_visit`: the color map, the explicit gray
stack, and the `u64`-keyed stack-position map.  The extra `finished` field
is a ghost: it records the order in which nodes are blackened (used only by
the acyclicity proof) and influences no computed result. -/
structure DfsSt where
  color : List (QId × Color)
  stack : List QId
  pos : List (Nat × Nat)
  finished : List QId
deriving Repr

/-- Initial coloring: every key of the quest map is white. -/
def initColor (quests : List (QId × Quest)) : List (QId × Color) :=
  quests.foldl (fun c p => hmInsert c p.1 Color.white) []

/-- One iteration of the successor loop of `dfs_visit`: once a cycle is
found the remaining successors are skipped (the early `return` of the
source), a white successor is visited recursively, a gray successor
reports a cycle — the stack slice from its recorded position, or the
`[successor, current]` pair if the position is missing — and black or
unknown successors are skipped. -/
def neighborStep (visit : QId → DfsSt → DfsSt × Option (List QId))
    (node : QId) (acc : DfsSt × Option (List QId)) (nei : QId) :
    DfsSt × Option (List QId) :=
  match acc with
  | (s, some c) => (s, some c)
  | (s, none) =>
    match hmGet s.color nei with
    | some Color.white => visit nei s
    | some Color.gray =>
      match hmGet s.pos nei.as_u64 with
      | some start => (s, some (s.stack.drop start))
      | none => (s, some [nei, node])
    | _ => (s, none)

/-- Model of `importance.rs::dfs_visit`, with explicit state and fuel (the
source recursion terminates because each nested call grays a white node;
the fuel is decremented once per nesting level and is chosen one larger
than the node count, which the lemmas below show is never exhausted, so
the `fuel = 0` sentinel `some []` is unreachable). -/
def dfsVisit (adj : List (QId × List QId)) :
    Nat → QId → DfsSt → DfsSt × Option (List QId)
  | 0, _, s => (s, some [])
  | fuel + 1, node, s =>
    let s1 : DfsSt := ⟨hmInsert s.color node Color.gray, s.stack ++ [node],
      hmInsert s.pos node.as_u64 s.stack.length, s.finished⟩
    match ((hmGet adj node).getD []).foldl
        (neighborStep (dfsVisit adj fuel) node) (s1, none) with
    | (s2, some c) => (s2, some c)
    | (s2, none) =>
      (⟨hmInsert s2.color node Color.black, s2.stack.dropLast,
        hmRemove s2.pos node.as_u64, s2.finished ++ [node]⟩, none)

/-- The top-level DFS loop over the quest keys: visit every still-white
node, propagating the first detected cycle. -/
def dfsAll (adj : List (QId × List QId)) (fuel : Nat) :
    List QId → DfsSt → DfsSt × Option (List QId)
  | [], s => (s, none)
  | k :: rest, s =>
    match hmGet s.color k with
    | some Color.white =>
      match dfsVisit adj fuel k s with
      | (s', some c) => (s', some c)
      | (s', none) => dfsAll adj fuel rest s'
    | _ => dfsAll adj fuel rest s

/-- `raw`: the weight sum of the dependents entry of a quest (0 when the
quest has no dependents). -/
def rawScore (deps : List (QId × List (QId × ℚ))) (q : QId) : ℚ :=
  ((hmGet deps q).getD []).foldl (fun acc p => acc + p.2) 0

/-- The `base` map: `ln(1 + raw)` under `use_log`, else `raw`. -/
def computeBase (lnApprox : ℚ → ℚ) (use_log : Bool)
    (deps : List (QId × List (QId × ℚ))) (quests : List (QId × Quest)) :
    List (QId × ℚ) :=
  quests.foldl
    (fun b p =>
      let raw := rawScore deps p.1
      hmInsert b p.1 (if use_log then lnApprox (1 + raw) else raw))
    []

/-- The `score` map: `base + alpha · Σ weight · base(dependent)`. -/
def computeScores (alpha : ℚ) (deps : List (QId × List (QId × ℚ)))
    (base : List (QId × ℚ)) (quests : List (QId × Quest)) : List (QId × ℚ) :=
  quests.foldl
    (fun sc p =>
      let b := (hmGet base p.1).getD 0
      let prop := ((hmGet deps p.1).getD []).foldl
        (fun acc dw => acc + dw.2 * ((hmGet base dw.1).getD 0)) 0
      hmInsert sc p.1 (b + alpha * prop))
    []

/-- `score.values().fold(f64::NAN, f64::max)`: the maximum of the values,
or `none` for the empty map (where the fold stays NaN). -/
def maxScore : List ℚ → Option ℚ
  | [] => none
  | x :: xs => some (xs.foldl max x)

/-- Model of `importance.rs::compute_importance_scores`.  The divisor
inflation constant is the rational value of the literal `1.000000001`
(the nearest `f64` differs from it by under `1e-16`; no claim exercises the
`normalize = true, use_log = true` branches). -/
def compute_importance_scores (lnApprox : ℚ → ℚ) (db : QuestDatabase)
    (alpha : ℚ) (use_log norm : Bool) : Except PErr (List (QId × ℚ)) :=
  if ¬ (0 ≤ alpha ∧ alpha ≤ 1) then .error (.alphaOutOfRange alpha)
  else
    let (adj, deps) := buildGraph db.quests
    let color0 := initColor db.quests
    match dfsAll adj (db.quests.length + 1) (db.quests.map Prod.fst)
        ⟨color0, [], [], []⟩ with
    | (_, some cycle) => .error (.cycleDetected cycle)
    | (_, none) =>
      let base := computeBase lnApprox use_log deps db.quests
      let scores := computeScores alpha deps base db.quests
      if norm then
        match maxScore (scores.map Prod.snd) with
        | none => .ok scores
        | some mx =>
          if mx = 0 then .ok scores
          else
            let divisor := mx * (1000000001 / 1000000000 : ℚ)
            .ok (scores.map fun p => (p.1, p.2 / divisor))
      else .ok scores

/-! ## Claims about the normalizer (C1, C3, C4) -/

/-- Helper: `normalize_value` on an object always yields an object. -/
theorem normalize_value_obj (kvs : List (String × Json)) :
    normalize_value (.obj kvs) = .obj (normalize_map kvs []) := rfl

/-- C1, counterexample: the object `\x7b"0:10": \x7b"id:8":"foo"\x7d, "1:10":
\x7b"id:8":"bar"\x7d\x7d` does not normalize to the 2-element array
`[\x7b"id":"foo"\x7d, \x7b"id":"bar"\x7d]`; `normalize_value` leaves it as an
object. -/
theorem C1_counterexample :
    normalize_value (.obj [("0:10", .obj [("id:8", .str "foo")]),
        ("1:10", .obj [("id:8", .str "bar")])]) ≠
      .arr [.obj [("id", .str "foo")], .obj [("id", .str "bar")]] := by
  decide

/-- The inserted binding is present after a `BTreeMap` insert. -/
theorem btreeInsert_mem_self : ∀ (acc : List (Nat × Json)) (k : Nat) (v : Json),
    (k, v) ∈ btreeInsert acc k v
  | [], _, _ => by simp [btreeInsert]
  | (k0, v0) :: rest, k, v => by
    by_cases h1 : k < k0
    · simp [btreeInsert, h1]
    · by_cases h2 : k = k0
      · simp [btreeInsert, h1, h2]
      · simp only [btreeInsert, if_neg h1, if_neg h2, List.mem_cons]
        exact .inr (btreeInsert_mem_self rest k v)

/-- Every binding after a `BTreeMap` insert is the inserted one or an old
one. -/
theorem btreeInsert_mem_elim : ∀ {acc : List (Nat × Json)} {k : Nat} {v : Json}
    {p : Nat × Json}, p ∈ btreeInsert acc k v → p = (k, v) ∨ p ∈ acc
  | [], _, _, _, h => .inl (by simpa [btreeInsert] using h)
  | (k0, v0) :: rest, k, v, p, h => by
    by_cases h1 : k < k0
    · simp only [btreeInsert, if_pos h1, List.mem_cons] at h
      rcases h with rfl | h
      · exact .inl rfl
      · exact .inr (List.mem_cons.mpr h)
    · by_cases h2 : k = k0
      · simp only [btreeInsert, if_neg h1, if_pos h2, List.mem_cons] at h
        rcases h with rfl | h
        · exact .inl rfl
        · exact .inr (List.mem_cons_of_mem _ h)
      · simp only [btreeInsert, if_neg h1, if_neg h2, List.mem_cons] at h
        rcases h with rfl | h
        · exact .inr (List.mem_cons_self _ _)
        · rcases btreeInsert_mem_elim h with h3 | h3
          · exact .inl h3
          · exact .inr (List.mem_cons_of_mem _ h3)

/-- A binding under a different key survives a `BTreeMap` insert. -/
theorem btreeInsert_mem_of_ne : ∀ {acc : List (Nat × Json)} {k : Nat} {v : Json}
    {p : Nat × Json}, p ∈ acc → p.1 ≠ k → p ∈ btreeInsert acc k v
  | [], _, _, _, hp, _ => by simp at hp
  | (k0, v0) :: rest, k, v, p, hp, hne => by
    by_cases h1 : k < k0
    · simp only [btreeInsert, if_pos h1, List.mem_cons]
      exact .inr (List.mem_cons.mp hp)
    · by_cases h2 : k = k0
      · simp only [btreeInsert, if_neg h1, if_pos h2, List.mem_cons]
        rcases List.mem_cons.mp hp with rfl | h
        · exact absurd h2.symm hne
        · exact .inr h
      · simp only [btreeInsert, if_neg h1, if_neg h2, List.mem_cons]
        rcases List.mem_cons.mp hp with rfl | h
        · exact .inl rfl
        · exact .inr (btreeInsert_mem_of_ne h hne)

/-- `BTreeMap` insertion keeps the association list strictly sorted by
key. -/
theorem btreeInsert_sorted : ∀ {acc : List (Nat × Json)} (k : Nat) (v : Json),
    acc.Pairwise (fun a b => a.1 < b.1) →
    (btreeInsert acc k v).Pairwise (fun a b => a.1 < b.1)
  | [], k, v, _ => by simp [btreeInsert]
  | (k0, v0) :: rest, k, v, h => by
    rcases List.pairwise_cons.mp h with ⟨h1, h2⟩
    by_cases hlt : k < k0
    · simp only [btreeInsert, if_pos hlt]
      refine List.Pairwise.cons ?_ h
      intro p hp
      rcases List.mem_cons.mp hp with rfl | hm
      · exact hlt
      · exact hlt.trans (h1 p hm)
    · by_cases heq : k = k0
      · subst heq
        simp only [btreeInsert, if_neg hlt, if_pos rfl]
        exact List.Pairwise.cons h1 h2
      · simp only [btreeInsert, if_neg hlt, if_neg heq]
        refine List.Pairwise.cons ?_ (btreeInsert_sorted k v h2)
        intro p hp
        rcases btreeInsert_mem_elim hp with rfl | hm
        · omega
        · exact h1 p hm

/-- The `BTreeMap`-building loop of `map_to_array_if_numeric`: on a map of
parseable keys it succeeds, producing a strictly index-sorted list whose
bindings come from the input map or the accumulator, covering every
parsed index and every accumulator key. -/
theorem mapToArray_go_spec :
    ∀ (m : List (String × Json)) (acc : List (Nat × Json)),
      (∀ p ∈ m, (parseUsize? p.1).isSome = true) →
      acc.Pairwise (fun a b => a.1 < b.1) →
      ∃ l, map_to_array_if_numeric.go m acc = some l ∧
        l.Pairwise (fun a b => a.1 < b.1) ∧
        (∀ p ∈ l, p ∈ acc ∨ ∃ k, (k, p.2) ∈ m ∧ parseUsize? k = some p.1) ∧
        (∀ q ∈ m, ∀ i, parseUsize? q.1 = some i → ∃ w, (i, w) ∈ l) ∧
        (∀ p ∈ acc, ∃ w, (p.1, w) ∈ l)
  | [], acc, _, hsort =>
    ⟨acc, rfl, hsort, fun p hp => .inl hp, fun q hq => by simp at hq,
      fun p hp => ⟨p.2, by simpa using hp⟩⟩
  | (k0, v0) :: rest, acc, hnum, hsort => by
    obtain ⟨i0, hi0⟩ : ∃ i, parseUsize? k0 = some i := by
      have h0 := hnum (k0, v0) (List.mem_cons_self _ _)
      cases hpp : parseUsize? k0 with
      | none => rw [hpp] at h0; simp at h0
      | some i => exact ⟨i, rfl⟩
    obtain ⟨l, hgo, hlsort, hsrc, hcov, hpres⟩ :=
      mapToArray_go_spec rest (btreeInsert acc i0 v0)
        (fun p hp => hnum p (List.mem_cons_of_mem _ hp))
        (btreeInsert_sorted i0 v0 hsort)
    refine ⟨l, ?_, hlsort, ?_, ?_, ?_⟩
    · simp only [map_to_array_if_numeric.go, hi0]
      exact hgo
    · intro p hp
      rcases hsrc p hp with hin | ⟨k, hk, hkp⟩
      · rcases btreeInsert_mem_elim hin with rfl | hold
        · exact .inr ⟨k0, List.mem_cons_self _ _, hi0⟩
        · exact .inl hold
      · exact .inr ⟨k, List.mem_cons_of_mem _ hk, hkp⟩
    · intro q hq i hqi
      rcases List.mem_cons.mp hq with rfl | hm
      · rw [hi0] at hqi
        obtain rfl : i0 = i := Option.some.inj hqi
        exact hpres (i0, v0) (btreeInsert_mem_self acc i0 v0)
      · exact hcov q hm i hqi
    · intro p hp
      by_cases hpk : p.1 = i0
      · rw [hpk]
        exact hpres (i0, v0) (btreeInsert_mem_self acc i0 v0)
      · exact hpres p (btreeInsert_mem_of_ne hp hpk)

/-- C1, amended: `normalize_value` never replaces an object by a sequence —
it only strips key suffixes (recursively) — and the promotion of a
numeric-keyed map to an index-ordered sequence is performed by the separate
helper `map_to_array_if_numeric`: on every non-empty map whose keys all
parse as `usize`, it yields the values listed by strictly ascending parsed
index, each value taken from an entry carrying its index and every parsed
index represented; on the claimed example, normalization yields the
stripped object and the helper then yields the claimed 2-element
sequence. -/
theorem C1_amended :
    (∀ kvs : List (String × Json), ∃ kvs',
      normalize_value (.obj kvs) = .obj kvs') ∧
    (∀ m : List (String × Json), m ≠ [] →
      (∀ p ∈ m, (parseUsize? p.1).isSome = true) →
      ∃ l : List (Nat × Json),
        map_to_array_if_numeric m = some (l.map Prod.snd) ∧
        l.Pairwise (fun a b => a.1 < b.1) ∧
        (∀ p ∈ l, ∃ k, (k, p.2) ∈ m ∧ parseUsize? k = some p.1) ∧
        (∀ q ∈ m, ∀ i, parseUsize? q.1 = some i → ∃ w, (i, w) ∈ l)) ∧
    normalize_value (.obj [("0:10", .obj [("id:8", .str "foo")]),
        ("1:10", .obj [("id:8", .str "bar")])]) =
      .obj [("0", .obj [("id", .str "foo")]), ("1", .obj [("id", .str "bar")])] ∧
    map_to_array_if_numeric
        [("0", .obj [("id", .str "foo")]), ("1", .obj [("id", .str "bar")])] =
      some [.obj [("id", .str "foo")], .obj [("id", .str "bar")]] := by
  refine ⟨fun kvs => ⟨normalize_map kvs [], rfl⟩, ?_, by decide, by decide⟩
  intro m hne hnum
  obtain ⟨l, hgo, hsort, hsrc, hcov, _⟩ :=
    mapToArray_go_spec m [] hnum List.Pairwise.nil
  have hsrc' : ∀ p ∈ l, ∃ k, (k, p.2) ∈ m ∧ parseUsize? k = some p.1 := by
    intro p hp
    rcases hsrc p hp with h | h
    · simp at h
    · exact h
  have hlne : l ≠ [] := by
    rcases m with _ | ⟨q0, m'⟩
    · exact absurd rfl hne
    · have h0 := hnum q0 (List.mem_cons_self _ _)
      cases hpp : parseUsize? q0.1 with
      | none => rw [hpp] at h0; simp at h0
      | some i =>
        obtain ⟨w, hw⟩ := hcov q0 (List.mem_cons_self _ _) i hpp
        intro hl
        rw [hl] at hw
        simp at hw
  refine ⟨l, ?_, hsort, hsrc', hcov⟩
  rcases l with _ | ⟨x, xs⟩
  · exact absurd rfl hlne
  · simp only [map_to_array_if_numeric, hgo]

/-- C1, amended, witness: the helper's ordering guarantee instantiated on a
two-entry map given in descending index order. -/
theorem C1_amended_witness :
    ∃ l : List (Nat × Json),
      map_to_array_if_numeric [("1", .num 5), ("0", .num 6)] =
        some (l.map Prod.snd) ∧
      l.Pairwise (fun a b => a.1 < b.1) ∧
      (∀ p ∈ l, ∃ k, (k, p.2) ∈ [("1", Json.num 5), ("0", Json.num 6)] ∧
        parseUsize? k = some p.1) ∧
      (∀ q ∈ [("1", Json.num 5), ("0", Json.num 6)], ∀ i,
        parseUsize? q.1 = some i → ∃ w, (i, w) ∈ l) :=
  C1_amended.2.1 [("1", .num 5), ("0", .num 6)] (by decide) (by decide)

/-- C3, counterexample: the object `\x7b"a:8":1, "a:10":2\x7d` does not
normalize to `\x7b"a":[1,2]\x7d`: no merge sequence is formed. -/
theorem C3_counterexample :
    normalize_value (.obj [("a:8", .num 1), ("a:10", .num 2)]) ≠
      .obj [("a", .arr [.num 1, .num 2])] := by
  decide

/-- Looking up the key just inserted yields the inserted value. -/
theorem mapGet_mapInsert_self : ∀ (m : List (String × Json)) (k : String)
    (v : Json), mapGet (mapInsert m k v) k = some v
  | [], k, v => by simp [mapInsert, mapGet]
  | (k0, v0) :: rest, k, v => by
    by_cases h : k0 = k
    · simp [mapInsert, h, mapGet]
    · simp [mapInsert, h, mapGet, mapGet_mapInsert_self rest k v]

/-- Lookup at another key is unchanged by an insert. -/
theorem mapGet_mapInsert_ne : ∀ (m : List (String × Json)) (k k' : String)
    (v : Json), k ≠ k' → mapGet (mapInsert m k v) k' = mapGet m k'
  | [], k, k', v, h => by simp [mapInsert, mapGet, h]
  | (k0, v0) :: rest, k, k', v, h => by
    by_cases h0 : k0 = k
    · subst h0
      simp [mapInsert, mapGet, h]
    · by_cases h1 : k0 = k'
      · simp only [mapInsert, if_neg h0, mapGet, if_pos h1]
      · simp [mapInsert, h0, mapGet, h1, mapGet_mapInsert_ne rest k k' v h]

/-- `normalize_map` binds each key to the normalized value of the *last*
entry (in the order the map iterates) whose key strips to it: an insert
under an already-present stripped key overwrites. -/
theorem normalize_map_getLast :
    ∀ (kvs acc : List (String × Json)) (k : String),
      mapGet (normalize_map kvs acc) k =
        match (kvs.filter fun p => stripKey p.1 == k).getLast? with
        | some p => some (normalize_value p.2)
        | none => mapGet acc k
  | [], acc, k => by simp [normalize_map, List.filter]
  | (k0, v0) :: rest, acc, k => by
    simp only [normalize_map]
    rw [normalize_map_getLast rest _ k]
    by_cases h : stripKey k0 = k
    · have hf : (((k0, v0) :: rest).filter fun p => stripKey p.1 == k) =
          (k0, v0) :: (rest.filter fun p => stripKey p.1 == k) := by
        simp [List.filter_cons, h]
      rw [hf]
      cases hfr : rest.filter fun p => stripKey p.1 == k with
      | nil =>
        show mapGet (mapInsert acc (stripKey k0) (normalize_value v0)) k =
          some (normalize_value v0)
        rw [h, mapGet_mapInsert_self]
      | cons x xs =>
        rw [List.getLast?_cons_cons]
        cases hgl : (x :: xs).getLast? with
        | none => simp [List.getLast?] at hgl
        | some p => rfl
    · have hf : (((k0, v0) :: rest).filter fun p => stripKey p.1 == k) =
          rest.filter fun p => stripKey p.1 == k := by
        simp [List.filter_cons, h]
      rw [hf]
      cases hfr : rest.filter fun p => stripKey p.1 == k with
      | nil =>
        show mapGet (mapInsert acc (stripKey k0) (normalize_value v0)) k =
          mapGet acc k
        exact mapGet_mapInsert_ne acc (stripKey k0) k (normalize_value v0) h
      | cons x xs => rfl

/-- C3, amended: whatever order the object's entries iterate in, when
several keys strip to the same normalized key the later-iterated entry
simply overwrites the earlier one — the normalized object binds each key to
the normalized value of the last entry stripping to it, and no sequence
`[previous, new]` is ever formed.  In particular `\x7b"a:8":1, "a:10":2\x7d`
normalizes to `\x7b"a":2\x7d` when iterated in that order and to
`\x7b"a":1\x7d` in the reverse order. -/
theorem C3_amended :
    (∀ (kvs : List (String × Json)) (k : String),
      mapGet (normalize_map kvs []) k =
        match (kvs.filter fun p => stripKey p.1 == k).getLast? with
        | some p => some (normalize_value p.2)
        | none => none) ∧
    normalize_value (.obj [("a:8", .num 1), ("a:10", .num 2)]) =
      .obj [("a", .num 2)] ∧
    normalize_value (.obj [("a:10", .num 2), ("a:8", .num 1)]) =
      .obj [("a", .num 1)] := by
  refine ⟨?_, by decide, by decide⟩
  intro kvs k
  rw [normalize_map_getLast]
  cases (kvs.filter fun p => stripKey p.1 == k).getLast? with
  | none => rfl
  | some p => rfl

/-- C4, counterexample: `normalize_value` is not idempotent: a key with two
colons is stripped once per pass, so `\x7b"a:b:8":1\x7d` normalizes to
`\x7b"a:b":1\x7d` and then again to `\x7b"a":1\x7d`. -/
theorem C4_counterexample :
    normalize_value (normalize_value (.obj [("a:b:8", .num 1)])) ≠
      normalize_value (.obj [("a:b:8", .num 1)]) := by
  decide

/-- A string without any colon. -/
def colonFree (s : String) : Bool := s.data.all fun c => c != ':'

/-- A key whose single stripping already removes every colon (equivalently,
a key with at most one colon). -/
def keyStripsClean (k : String) : Bool := colonFree (stripKey k)

mutual
/-- Every object key in the value, recursively, strips clean. -/
def cleanKeysVal : Json → Bool
  | .null => true
  | .bool _ => true
  | .num _ => true
  | .str _ => true
  | .arr xs => cleanKeysList xs
  | .obj kvs => cleanKeysMap kvs

/-- List version of `cleanKeysVal`. -/
def cleanKeysList : List Json → Bool
  | [] => true
  | x :: xs => cleanKeysVal x && cleanKeysList xs

/-- Map version of `cleanKeysVal`. -/
def cleanKeysMap : List (String × Json) → Bool
  | [] => true
  | (k, v) :: rest => keyStripsClean k && cleanKeysVal v && cleanKeysMap rest
end

/-- The key does not occur in the association list. -/
def keyNotMem (k : String) : List (String × Json) → Bool
  | [] => true
  | (k0, _) :: rest => (k0 != k) && keyNotMem k rest

mutual
/-- Normalization fixed points: colon-free, duplicate-free object keys with
normed values, recursively. -/
def normedVal : Json → Bool
  | .null => true
  | .bool _ => true
  | .num _ => true
  | .str _ => true
  | .arr xs => normedList xs
  | .obj kvs => normedMap kvs

/-- List version of `normedVal`. -/
def normedList : List Json → Bool
  | [] => true
  | x :: xs => normedVal x && normedList xs

/-- Map version of `normedVal`. -/
def normedMap : List (String × Json) → Bool
  | [] => true
  | (k, v) :: rest => colonFree k && normedVal v && keyNotMem k rest && normedMap rest
end

/-- A colon-free character list has no colon to find. -/
theorem stripChars_none (cs : List Char) (h : ∀ c ∈ cs, c ≠ ':') :
    stripChars cs = none := by
  induction cs with
  | nil => rfl
  | cons c rest ih =>
    have hc : c ≠ ':' := h c (by simp)
    have hrest := ih fun x hx => h x (by simp [hx])
    simp [stripChars, hrest, hc]

/-- Stripping is the identity on colon-free keys. -/
theorem stripKey_colonFree {k : String} (h : colonFree k = true) : stripKey k = k := by
  have h' : ∀ c ∈ k.data, c ≠ ':' := by
    intro c hc
    have := List.all_eq_true.mp h c hc
    simpa using this
  simp [stripKey, stripChars_none k.data h']

/-- Inserting an absent key appends it. -/
theorem mapInsert_notMem {k : String} {v : Json} :
    ∀ {m : List (String × Json)}, keyNotMem k m = true →
      mapInsert m k v = m ++ [(k, v)]
  | [], _ => rfl
  | (k0, v0) :: rest, h => by
    simp only [keyNotMem, Bool.and_eq_true, bne_iff_ne] at h
    simp [mapInsert, h.1, mapInsert_notMem h.2]

/-- Key absence is preserved by insertion of a different key. -/
theorem keyNotMem_mapInsert {k0 k : String} {v : Json} (hne : k0 ≠ k) :
    ∀ {m : List (String × Json)}, keyNotMem k0 m = true →
      keyNotMem k0 (mapInsert m k v) = true
  | [], _ => by simp [mapInsert, keyNotMem, bne_iff_ne, Ne.symm hne]
  | (k1, v1) :: rest, h => by
    simp only [keyNotMem, Bool.and_eq_true, bne_iff_ne] at h
    by_cases hk : k1 = k
    · simp [mapInsert, hk, keyNotMem, bne_iff_ne, Ne.symm hne, h.2]
    · simp only [mapInsert, if_neg hk, keyNotMem, Bool.and_eq_true, bne_iff_ne]
      exact ⟨h.1, keyNotMem_mapInsert hne h.2⟩

/-- Insertion of a clean binding preserves normedness of the map. -/
theorem normedMap_mapInsert {k : String} {v : Json}
    (hk : colonFree k = true) (hv : normedVal v = true) :
    ∀ {m : List (String × Json)}, normedMap m = true →
      normedMap (mapInsert m k v) = true
  | [], _ => by simp [mapInsert, normedMap, keyNotMem, hk, hv]
  | (k0, v0) :: rest, h => by
    simp only [normedMap, Bool.and_eq_true] at h
    by_cases hkk : k0 = k
    · subst hkk
      simp only [mapInsert, if_pos rfl, normedMap, Bool.and_eq_true]
      exact ⟨⟨⟨hk, hv⟩, h.1.2⟩, h.2⟩
    · simp only [mapInsert, if_neg hkk, normedMap, Bool.and_eq_true]
      exact ⟨⟨⟨h.1.1.1, h.1.1.2⟩, keyNotMem_mapInsert hkk h.1.2⟩,
        normedMap_mapInsert hk hv h.2⟩

mutual
/-- Normalizing a clean value yields a normed value. -/
theorem clean_norm_val : ∀ v : Json, cleanKeysVal v = true →
    normedVal (normalize_value v) = true
  | .null, _ => rfl
  | .bool _, _ => rfl
  | .num _, _ => rfl
  | .str _, _ => rfl
  | .arr xs, h => clean_norm_list xs h
  | .obj kvs, h => clean_norm_map kvs [] h rfl

/-- List version of `clean_norm_val`. -/
theorem clean_norm_list : ∀ xs : List Json, cleanKeysList xs = true →
    normedList (normalize_list xs) = true
  | [], _ => rfl
  | x :: xs, h => by
    simp only [cleanKeysList, Bool.and_eq_true] at h
    simp only [normalize_list, normedList, Bool.and_eq_true]
    exact ⟨clean_norm_val x h.1, clean_norm_list xs h.2⟩

/-- Folding clean bindings into a normed accumulator stays normed. -/
theorem clean_norm_map : ∀ (kvs : List (String × Json))
    (acc : List (String × Json)), cleanKeysMap kvs = true →
    normedMap acc = true → normedMap (normalize_map kvs acc) = true
  | [], _, _, hacc => hacc
  | (k, v) :: rest, acc, h, hacc => by
    simp only [cleanKeysMap, Bool.and_eq_true] at h
    exact clean_norm_map rest _ h.2
      (normedMap_mapInsert h.1.1 (clean_norm_val v h.1.2) hacc)
end

/-- Heads of a normed concatenation are absent from the prefix. -/
theorem normedMap_append_notMem {k : String} {v : Json}
    {rest : List (String × Json)} :
    ∀ {acc : List (String × Json)},
      normedMap (acc ++ (k, v) :: rest) = true → keyNotMem k acc = true
  | [], _ => rfl
  | (k0, v0) :: acc, h => by
    simp only [List.cons_append, normedMap, Bool.and_eq_true] at h
    have hk0 : (k ≠ k0) := by
      have := h.1.2
      have hmem : keyNotMem k0 (acc ++ (k, v) :: rest) = true := this
      clear h this
      induction acc with
      | nil =>
        simp only [List.nil_append, keyNotMem, Bool.and_eq_true, bne_iff_ne] at hmem
        exact hmem.1
      | cons a acc ih =>
        simp only [List.cons_append, keyNotMem, Bool.and_eq_true] at hmem
        exact ih hmem.2
    simp only [keyNotMem, Bool.and_eq_true, bne_iff_ne]
    exact ⟨Ne.symm hk0, normedMap_append_notMem h.2⟩

/-- A suffix of a normed map is normed. -/
theorem normedMap_append_elim {l : List (String × Json)} :
    ∀ {acc : List (String × Json)}, normedMap (acc ++ l) = true →
      normedMap l = true
  | [], h => h
  | _ :: acc, h => by
    simp only [List.cons_append, normedMap, Bool.and_eq_true] at h
    exact normedMap_append_elim h.2

mutual
/-- Normalization is the identity on normed values. -/
theorem normed_fix_val : ∀ v : Json, normedVal v = true → normalize_value v = v
  | .null, _ => rfl
  | .bool _, _ => rfl
  | .num _, _ => rfl
  | .str _, _ => rfl
  | .arr xs, h => congrArg Json.arr (normed_fix_list xs h)
  | .obj kvs, h => congrArg Json.obj (normed_fix_map kvs [] (by simpa using h))

/-- List version of `normed_fix_val`. -/
theorem normed_fix_list : ∀ xs : List Json, normedList xs = true →
    normalize_list xs = xs
  | [], _ => rfl
  | x :: xs, h => by
    simp only [normedList, Bool.and_eq_true] at h
    simp only [normalize_list]
    rw [normed_fix_val x h.1, normed_fix_list xs h.2]

/-- Folding a normed suffix over its own prefix reproduces the
concatenation. -/
theorem normed_fix_map : ∀ (kvs : List (String × Json))
    (acc : List (String × Json)), normedMap (acc ++ kvs) = true →
    normalize_map kvs acc = acc ++ kvs
  | [], acc, _ => by simp [normalize_map]
  | (k, v) :: rest, acc, h => by
    have hsuffix := normedMap_append_elim h
    simp only [normedMap, Bool.and_eq_true] at hsuffix
    have hnm : keyNotMem k acc = true := normedMap_append_notMem h
    simp only [normalize_map]
    rw [stripKey_colonFree hsuffix.1.1.1, normed_fix_val v hsuffix.1.1.2,
      mapInsert_notMem hnm]
    have h2 : normedMap ((acc ++ [(k, v)]) ++ rest) = true := by
      simpa [List.append_assoc] using h
    rw [normed_fix_map rest (acc ++ [(k, v)]) h2]
    simp
end

/-- C4, amended: `normalize_value` is idempotent on every value whose
object keys, recursively, contain at most one colon (one stripping already
removes every colon); this condition is sufficient but not necessary — in
`\x7b"k": \x7b"a:b:c": 1\x7d, "k:8": 5\x7d` the binding with the two-colon
key is overwritten by the colliding clean one, leaving the value idempotent
although not clean — while for keys with two or more colons that survive,
a second pass strips again, as the counterexample shows. -/
theorem C4_amended :
    (∀ v : Json, cleanKeysVal v = true →
      normalize_value (normalize_value v) = normalize_value v) ∧
    (cleanKeysVal (.obj [("k", .obj [("a:b:c", .num 1)]),
        ("k:8", .num 5)]) = false ∧
      normalize_value (normalize_value (.obj [("k", .obj [("a:b:c", .num 1)]),
          ("k:8", .num 5)])) =
        normalize_value (.obj [("k", .obj [("a:b:c", .num 1)]),
          ("k:8", .num 5)])) :=
  ⟨fun v h => normed_fix_val _ (clean_norm_val v h), by decide, by decide⟩

/-- C4, witness: the amended idempotence applied to a concrete tagged
document. -/
theorem C4_amended_witness :
    cleanKeysVal (.obj [("a:8", .num 1),
      ("b", .arr [.obj [("c:10", .bool true)]])]) = true ∧
    normalize_value (normalize_value (.obj [("a:8", .num 1),
      ("b", .arr [.obj [("c:10", .bool true)]])])) =
      normalize_value (.obj [("a:8", .num 1),
        ("b", .arr [.obj [("c:10", .bool true)]])]) :=
  ⟨by decide, C4_amended.1 _ (by decide)⟩

/-! ## Claims about boolean coercion (C8) and the quest pipeline (C2) -/

instance {α β : Type} [DecidableEq α] [DecidableEq β] : DecidableEq (Except α β) :=
  fun a b =>
    match a, b with
    | .ok x, .ok y => decidable_of_iff (x = y) (by simp)
    | .error x, .error y => decidable_of_iff (x = y) (by simp)
    | .ok _, .error _ => isFalse (by simp)
    | .error _, .ok _ => isFalse (by simp)

/-- A quest document whose properties carry `isMain` as the integer 1. -/
def questIsMainInt : Json :=
  .obj [("properties", .obj [("betterquesting",
    .obj [("name", .str "N"), ("isMain", .num 1)])])]

/-- A quest document whose properties carry `isMain` as the string "0". -/
def questIsMainStr : Json :=
  .obj [("properties", .obj [("betterquesting",
    .obj [("name", .str "N"), ("isMain", .str "0")])])]

/-- C8, counterexample: `bool_from_int` rejects the string `"0"`, so a quest
document with `isMain` set to the string `"0"` fails to deserialize instead
of loading with `is_main == false`. -/
theorem C8_counterexample :
    bool_from_int (.str "0") = .error () ∧
    questFromFileValue questIsMainStr = .error .jsonErr := by
  exact ⟨rfl, rfl⟩

/-- C8, amended: wherever a boolean property is expected, the loader
accepts real JSON booleans and the integers 0/1 (null meaning absent);
every other value — other integers and all strings, including `"0"`/`"1"` —
is rejected with a deserialization error.  In particular `isMain: 1` loads
with `is_main == true` while `isMain: "0"` makes the quest fail to load. -/
theorem C8_amended :
    (∀ b : Bool, bool_from_int (.bool b) = .ok (some b)) ∧
    bool_from_int (.num 0) = .ok (some false) ∧
    bool_from_int (.num 1) = .ok (some true) ∧
    bool_from_int .null = .ok none ∧
    (∀ n : Int, n ≠ 0 → n ≠ 1 → bool_from_int (.num n) = .error ()) ∧
    (∀ s : String, bool_from_int (.str s) = .error ()) ∧
    (questFromFileValue questIsMainInt).map
        (fun q => q.properties.map QuestProperties.is_main) =
      .ok (some (some true)) ∧
    questFromFileValue questIsMainStr = .error .jsonErr := by
  refine ⟨fun b => rfl, rfl, rfl, rfl, ?_, fun s => rfl, rfl, rfl⟩
  intro n h0 h1
  show bool_from_int (.num n) = .error ()
  unfold bool_from_int
  split <;> simp_all

/-- C8, witness: the rejection of an integer other than 0/1, obtained from
the amended statement at the concrete input 5. -/
theorem C8_amended_witness :
    bool_from_int (.num 5) = .error () :=
  C8_amended.2.2.2.2.1 5 (by decide) (by decide)

/-- The quest file of the C2 example: its top-level id keys carry NBT tag
suffixes. -/
def c2file : Json :=
  .obj [("questIDHigh:3", .num 3), ("questIDLow:3", .num 1),
    ("properties", .obj [("betterquesting", .obj [("name", .str "N")])])]

/-- C2: the quest loader deserializes the raw parsed file value without
normalizing it first, so top-level keys with NBT tag suffixes land in
`extra` and the quest id defaults to 0, while the normalized form of the
same file loads with id `(3, 1)`: the two pipelines disagree.  The claim —
backed by the module documentation of `db.rs` and the repository test
`db_parse.rs` — describes the normalize-first pipeline, which the code does
not implement. -/
theorem C2_theorem :
    (questFromFileValue c2file).map Quest.id = .ok ⟨0⟩ ∧
    (questFromFileValue (normalize_value c2file)).map Quest.id =
      .ok ⟨3 * 2 ^ 32 + 1⟩ ∧
    questFromFileValue c2file ≠ questFromFileValue (normalize_value c2file) := by
  refine ⟨by decide, by decide, by decide⟩

/-! ## Claim C5: prerequisite splitting -/

/-- C5: for every successfully loaded quest, `prerequisites` equals
`required_prerequisites`, required and optional prerequisites are disjoint
by 64-bit id, and the split follows the three-way rule: an explicit
non-empty optional list wins (required is the difference), else an
OR-like `quest_logic` makes everything optional, else everything is
required. -/
theorem C5_theorem (raw : RawQuest) (q : Quest)
    (h : Quest.from_raw raw = .ok q) :
    q.prerequisites = q.required_prerequisites ∧
    (∀ p ∈ q.required_prerequisites, ∀ o ∈ q.optional_prerequisites,
      p.as_u64 ≠ o.as_u64) ∧
    (if parse_prereqs raw.optional_pre_requisites ≠ [] then
      q.required_prerequisites =
        (parse_prereqs raw.pre_requisites).filter
          (fun p => p.as_u64 ∉
            (parse_prereqs raw.optional_pre_requisites).map QId.as_u64) ∧
      q.optional_prerequisites = parse_prereqs raw.optional_pre_requisites
    else if isOrLogic q.properties then
      q.optional_prerequisites = parse_prereqs raw.pre_requisites ∧
      q.required_prerequisites = []
    else
      q.required_prerequisites = parse_prereqs raw.pre_requisites ∧
      q.optional_prerequisites = []) := by
  simp only [Quest.from_raw] at h
  split at h
  · exact absurd h (by simp)
  next props hrp =>
    split at h
    next hopt =>
      cases h
      refine ⟨rfl, ?_, ?_⟩
      · intro p hp o ho
        simp only [List.mem_filter, decide_eq_true_eq] at hp
        exact fun hco => hp.2 (hco ▸ List.mem_map_of_mem QId.as_u64 ho)
      · rw [if_pos hopt]
        exact ⟨rfl, rfl⟩
    next hopt =>
      split at h
      next hlogic =>
        cases h
        refine ⟨rfl, ?_, ?_⟩
        · intro p hp
          simp at hp
        · rw [if_neg hopt, if_pos hlogic]
          exact ⟨rfl, rfl⟩
      next hlogic =>
        cases h
        refine ⟨rfl, ?_, ?_⟩
        · intro p _ o ho
          simp at ho
        · rw [if_neg hopt, if_neg hlogic]
          exact ⟨rfl, rfl⟩

/-- A concrete raw quest with prerequisites `(0,1), (0,2)` and the explicit
optional prerequisite `(0,2)`. -/
def c5raw : RawQuest :=
  ⟨some 0, some 10,
   some ⟨some ⟨"W", none, none, none, none, none, none, none, none, none,
     none, none, none, none, none, none, none, none, []⟩, []⟩,
   none, none,
   some (.array [.obj [("questIDHigh", .num 0), ("questIDLow", .num 1)],
     .obj [("questIDHigh", .num 0), ("questIDLow", .num 2)]]),
   some (.array [.obj [("questIDHigh", .num 0), ("questIDLow", .num 2)]]), []⟩

/-- The quest `c5raw` loads to: required `(0,1)`, optional `(0,2)`. -/
def c5quest : Quest :=
  ⟨⟨10⟩,
   some ⟨"W", none, none, none, none, none, none, none, none, none, none,
     none, none, none, none, none, none, none, []⟩,
   [], [], [⟨1⟩], [⟨1⟩], [⟨2⟩]⟩

/-- C5, witness: the splitting theorem evaluated at `c5raw`. -/
theorem C5_witness :
    c5quest.prerequisites = c5quest.required_prerequisites ∧
    (∀ p ∈ c5quest.required_prerequisites,
      ∀ o ∈ c5quest.optional_prerequisites, p.as_u64 ≠ o.as_u64) ∧
    (if parse_prereqs c5raw.optional_pre_requisites ≠ [] then
      c5quest.required_prerequisites =
        (parse_prereqs c5raw.pre_requisites).filter
          (fun p => p.as_u64 ∉
            (parse_prereqs c5raw.optional_pre_requisites).map QId.as_u64) ∧
      c5quest.optional_prerequisites = parse_prereqs c5raw.optional_pre_requisites
    else if isOrLogic c5quest.properties then
      c5quest.optional_prerequisites = parse_prereqs c5raw.pre_requisites ∧
      c5quest.required_prerequisites = []
    else
      c5quest.required_prerequisites = parse_prereqs c5raw.pre_requisites ∧
      c5quest.optional_prerequisites = []) :=
  C5_theorem c5raw c5quest (by decide)

/-! ## Claims about the database loader (C10, C9) -/

@[simp]
theorem exceptBind_ok {ε α β : Type} (a : α) (f : α → Except ε β) :
    (Except.ok a >>= f) = f a := rfl

@[simp]
theorem exceptBind_error {ε α β : Type} (e : ε) (f : α → Except ε β) :
    ((Except.error e : Except ε α) >>= f) = Except.error e := rfl

@[simp]
theorem exceptPure {ε α : Type} (a : α) :
    (pure a : Except ε α) = Except.ok a := rfl

/-- Every successfully converted quest carries resolved properties. -/
theorem from_raw_ok_properties (raw : RawQuest) (q : Quest)
    (h : Quest.from_raw raw = .ok q) : q.properties.isSome = true := by
  simp only [Quest.from_raw] at h
  split at h
  · exact absurd h (by simp)
  next props hrp =>
    split at h
    · cases h; rfl
    · split at h <;> (cases h; rfl)

/-- Every quest produced by the per-file load carries resolved properties. -/
theorem questFromFileValue_properties (v : Json) (q : Quest)
    (h : questFromFileValue v = .ok q) : q.properties.isSome = true := by
  simp only [questFromFileValue] at h
  split at h
  · exact absurd h (by simp)
  · exact from_raw_ok_properties _ _ h

/-- The quest-file loop preserves resolved properties across the
accumulator. -/
theorem loadQuests_props (source : QuestDataSource) (dir : String) :
    ∀ (names : List String) (acc l : List (QId × Quest)),
      (∀ p ∈ acc, p.2.properties.isSome = true) →
      loadQuests source dir names acc = .ok l →
      ∀ p ∈ l, p.2.properties.isSome = true
  | [], acc, l, hacc, h => by
    simp only [loadQuests] at h
    cases h
    exact hacc
  | e :: rest, acc, l, hacc, h => by
    simp only [loadQuests] at h
    split at h
    · cases hv : source.read_json (dir ++ "/" ++ e) with
      | error err => rw [hv] at h; exact absurd h (by simp)
      | ok v =>
        rw [hv] at h
        simp only [exceptBind_ok] at h
        cases hq : questFromFileValue v with
        | error err =>
          rw [hq] at h
          exact absurd h (by simp)
        | ok quest =>
          rw [hq] at h
          simp only [exceptBind_ok] at h
          split at h
          · exact absurd h (by simp)
          · refine loadQuests_props source dir rest _ l ?_ h
            intro p hp
            rcases List.mem_append.mp hp with hp | hp
            · exact hacc p hp
            · rcases List.mem_singleton.mp hp with rfl
              exact questFromFileValue_properties v quest hq
    · exact loadQuests_props source dir rest acc l hacc h

/-- The quest stage only produces quests with resolved properties. -/
theorem loadQuestsStage_props (source : QuestDataSource) (root : String)
    (l : List (QId × Quest)) (h : loadQuestsStage source root = .ok l) :
    ∀ p ∈ l, p.2.properties.isSome = true := by
  simp only [loadQuestsStage] at h
  split at h
  · cases hn : source.list_dir (root ++ "/Quests") with
    | error err => rw [hn] at h; exact absurd h (by simp)
    | ok names =>
      rw [hn] at h
      simp only [exceptBind_ok] at h
      exact loadQuests_props source _ names [] l (by simp) h
  · simp only [exceptPure, Except.ok.injEq] at h
    intro p hp
    rw [← h] at hp
    simp at hp

/-- C10: every quest inside a successfully loaded database has resolved
properties (`properties` is `Some`, and its `name` is a string by typing),
because `Quest::from_raw` fails with `InvalidFormat` whenever it cannot
locate a parseable properties object. -/
theorem C10_theorem :
    (∀ (raw : RawQuest) (q : Quest), Quest.from_raw raw = .ok q →
      q.properties.isSome = true) ∧
    (∀ (source : QuestDataSource) (root : String) (db : QuestDatabase),
      parse_default_quests_dir_from_source source root = .ok db →
      ∀ p ∈ db.quests, p.2.properties.isSome = true) := by
  refine ⟨from_raw_ok_properties, ?_⟩
  intro source root db h
  simp only [parse_default_quests_dir_from_source] at h
  split at h
  · exact absurd h (by simp)
  · cases hs : loadSettingsStage source root with
    | error err => rw [hs] at h; exact absurd h (by simp)
    | ok settings =>
      rw [hs] at h
      simp only [exceptBind_ok] at h
      cases hq : loadQuestsStage source root with
      | error err => rw [hq] at h; exact absurd h (by simp)
      | ok quests =>
        rw [hq] at h
        simp only [exceptBind_ok] at h
        cases hql : parse_questlines_dir_from_source source (root ++ "/QuestLines") with
        | error err => rw [hql] at h; exact absurd h (by simp)
        | ok pr =>
          rcases pr with ⟨questlines, order⟩
          rw [hql] at h
          simp only [exceptBind_ok] at h
          cases hcr : checkRefs quests questlines with
          | error err => rw [hcr] at h; exact absurd h (by simp)
          | ok u =>
            cases u
            rw [hcr] at h
            simp only [exceptBind_ok, Except.ok.injEq] at h
            rw [← h]
            exact loadQuestsStage_props source root quests hq

/-- Entries passing per-questline validation all resolve in the quest map. -/
theorem checkEntries_ok (qlid : QId) (quests : List (QId × Quest)) :
    ∀ entries, checkEntries qlid quests entries = .ok () →
      ∀ e ∈ entries, (hmGet quests e.quest_id).isSome = true
  | [], _, e, he => by simp at he
  | e0 :: rest, h, e, he => by
    simp only [checkEntries] at h
    split at h
    next hfound =>
      rcases List.mem_cons.mp he with rfl | hm
      · exact hfound
      · exact checkEntries_ok qlid quests rest h e hm
    · exact absurd h (by simp)

/-- Questlines passing validation only reference quests in the map. -/
theorem checkRefs_ok (quests : List (QId × Quest)) :
    ∀ qls, checkRefs quests qls = .ok () →
      ∀ pl ∈ qls, ∀ e ∈ pl.2.entries, (hmGet quests e.quest_id).isSome = true
  | [], _, pl, hpl => by simp at hpl
  | (qlid, qline) :: rest, h, pl, hpl => by
    simp only [checkRefs] at h
    cases hce : checkEntries qlid quests qline.entries with
    | error err => rw [hce] at h; exact absurd h (by simp)
    | ok u =>
      cases u
      rw [hce] at h
      simp only [exceptBind_ok] at h
      rcases List.mem_cons.mp hpl with rfl | hm
      · exact checkEntries_ok qlid quests qline.entries hce
      · exact checkRefs_ok quests rest h pl hm

/-- Validation succeeds on a questline whose entries all resolve. -/
theorem checkEntries_all_ok (qlid : QId) (quests : List (QId × Quest)) :
    ∀ entries, (∀ e ∈ entries, (hmGet quests e.quest_id).isSome = true) →
      checkEntries qlid quests entries = .ok ()
  | [], _ => rfl
  | e0 :: rest, h => by
    simp only [checkEntries, if_pos (h e0 (List.mem_cons_self _ _))]
    exact checkEntries_all_ok qlid quests rest
      fun e he => h e (List.mem_cons_of_mem _ he)

/-- A questline with a dangling entry fails validation with
`MissingQuestReference` naming the questline id and a dangling quest id. -/
theorem checkEntries_err (qlid : QId) (quests : List (QId × Quest)) :
    ∀ entries, (∃ e ∈ entries, (hmGet quests e.quest_id).isSome = false) →
      ∃ e ∈ entries, hmGet quests e.quest_id = none ∧
        checkEntries qlid quests entries =
          .error (.missingQuestReference qlid.as_u64 e.quest_id)
  | [], h => by
    obtain ⟨e, he, _⟩ := h
    simp at he
  | e0 :: rest, h => by
    by_cases h0 : (hmGet quests e0.quest_id).isSome = true
    · obtain ⟨e, he, hiso⟩ := h
      rcases List.mem_cons.mp he with rfl | hm
      · rw [h0] at hiso
        simp at hiso
      · obtain ⟨e', he', hn, hc⟩ :=
          checkEntries_err qlid quests rest ⟨e, hm, hiso⟩
        refine ⟨e', List.mem_cons_of_mem _ he', hn, ?_⟩
        simp only [checkEntries, if_pos h0]
        exact hc
    · refine ⟨e0, List.mem_cons_self _ _, ?_, ?_⟩
      · cases hg : hmGet quests e0.quest_id with
        | none => rfl
        | some q => rw [hg] at h0; simp at h0
      · simp only [checkEntries, if_neg h0]

/-- A dangling entry anywhere among the questlines makes the whole
reference validation fail with `MissingQuestReference` naming a questline
and a dangling quest id from it. -/
theorem checkRefs_err (quests : List (QId × Quest)) :
    ∀ qls, (∃ pl ∈ qls, ∃ e ∈ pl.2.entries,
        (hmGet quests e.quest_id).isSome = false) →
      ∃ pl ∈ qls, ∃ e ∈ pl.2.entries, hmGet quests e.quest_id = none ∧
        checkRefs quests qls =
          .error (.missingQuestReference pl.1.as_u64 e.quest_id)
  | [], h => by
    obtain ⟨pl, hpl, _⟩ := h
    simp at hpl
  | (qlid, qline) :: rest, h => by
    by_cases hhead : ∃ e ∈ qline.entries, (hmGet quests e.quest_id).isSome = false
    · obtain ⟨e, he, hn, hc⟩ := checkEntries_err qlid quests qline.entries hhead
      refine ⟨(qlid, qline), List.mem_cons_self _ _, e, he, hn, ?_⟩
      simp only [checkRefs]
      rw [hc]
      rfl
    · have hok : checkEntries qlid quests qline.entries = .ok () := by
        apply checkEntries_all_ok
        intro e he
        by_contra hx
        exact hhead ⟨e, he, by simpa using hx⟩
      obtain ⟨pl, hpl, hrest⟩ := h
      rcases List.mem_cons.mp hpl with rfl | hm
      · exact absurd hrest hhead
      · obtain ⟨pl', hpl', e, he, hn, hc⟩ :=
          checkRefs_err quests rest ⟨pl, hm, hrest⟩
        refine ⟨pl', List.mem_cons_of_mem _ hpl', e, he, hn, ?_⟩
        simp only [checkRefs]
        rw [hok]
        simp only [exceptBind_ok]
        exact hc

/-- The data source of the C9 example: a `QuestLines/LineA` questline whose
single entry references quest `(0, 999)`, with no quests at all. -/
def c9src : QuestDataSource where
  list_dir p :=
    if p = "root/QuestLines" then .ok ["LineA"]
    else if p = "root/QuestLines/LineA" then
      .ok ["QuestLine.json", "entry_missing.json"]
    else .error .ioErr
  is_dir p :=
    p = "root" || p = "root/QuestLines" || p = "root/QuestLines/LineA"
  is_file p :=
    p = "root/QuestLines/LineA/QuestLine.json" ||
    p = "root/QuestLines/LineA/entry_missing.json"
  read_json p :=
    if p = "root/QuestLines/LineA/QuestLine.json" then
      .ok (.obj [("questLineIDHigh", .num 0), ("questLineIDLow", .num 200)])
    else if p = "root/QuestLines/LineA/entry_missing.json" then
      .ok (.obj [("questIDHigh", .num 0), ("questIDLow", .num 999)])
    else .error .ioErr

/-- C9: a database is returned only when every questline entry resolves in
the quest map; whenever the load gets as far as validation and some
questline entry is dangling, the load fails with `MissingQuestReference`
carrying the id of a questline and a dangling quest id from it; and on the
concrete `(0,999)` example the load fails with exactly
`MissingQuestReference` naming the questline id 200 and the missing quest
id. -/
theorem C9_theorem :
    (∀ (source : QuestDataSource) (root : String) (db : QuestDatabase),
      parse_default_quests_dir_from_source source root = .ok db →
      ∀ pl ∈ db.questlines, ∀ e ∈ pl.2.entries,
        (hmGet db.quests e.quest_id).isSome = true) ∧
    (∀ (source : QuestDataSource) (root : String)
      (settings : Option QuestSettings) (quests : List (QId × Quest))
      (questlines : List (QId × QuestLine)) (order : List QId),
      source.is_dir root = true →
      loadSettingsStage source root = .ok settings →
      loadQuestsStage source root = .ok quests →
      parse_questlines_dir_from_source source (root ++ "/QuestLines") =
        .ok (questlines, order) →
      (∃ pl ∈ questlines, ∃ e ∈ pl.2.entries,
        (hmGet quests e.quest_id).isSome = false) →
      ∃ pl ∈ questlines, ∃ e ∈ pl.2.entries,
        hmGet quests e.quest_id = none ∧
        parse_default_quests_dir_from_source source root =
          .error (.missingQuestReference pl.1.as_u64 e.quest_id)) ∧
    parse_default_quests_dir_from_source c9src "root" =
      .error (.missingQuestReference 200 ⟨999⟩) := by
  refine ⟨?_, ?_, ?_⟩
  · intro source root db h
    simp only [parse_default_quests_dir_from_source] at h
    split at h
    · exact absurd h (by simp)
    · cases hs : loadSettingsStage source root with
      | error err => rw [hs] at h; exact absurd h (by simp)
      | ok settings =>
        rw [hs] at h
        simp only [exceptBind_ok] at h
        cases hq : loadQuestsStage source root with
        | error err => rw [hq] at h; exact absurd h (by simp)
        | ok quests =>
          rw [hq] at h
          simp only [exceptBind_ok] at h
          cases hql : parse_questlines_dir_from_source source (root ++ "/QuestLines") with
          | error err => rw [hql] at h; exact absurd h (by simp)
          | ok pr =>
            rcases pr with ⟨questlines, order⟩
            rw [hql] at h
            simp only [exceptBind_ok] at h
            cases hcr : checkRefs quests questlines with
            | error err => rw [hcr] at h; exact absurd h (by simp)
            | ok u =>
              cases u
              rw [hcr] at h
              simp only [exceptBind_ok, Except.ok.injEq] at h
              rw [← h]
              exact checkRefs_ok quests questlines hcr
  · intro source root settings quests questlines order hdir hs hq hql hdangle
    obtain ⟨pl, hpl, e, he, hn, hc⟩ := checkRefs_err quests questlines hdangle
    refine ⟨pl, hpl, e, he, hn, ?_⟩
    simp only [parse_default_quests_dir_from_source]
    rw [if_neg (not_not_intro hdir)]
    rw [hs]
    simp only [exceptBind_ok]
    rw [hq]
    simp only [exceptBind_ok]
    rw [hql]
    simp only [exceptBind_ok]
    rw [hc]
    rfl
  · decide

/-- A fully successful fixture: one quest `(0,1)` and one questline `(0,100)`
whose single entry references `(0,1)`. -/
def srcOK : QuestDataSource where
  list_dir p :=
    if p = "root/Quests" then .ok ["quest1.json"]
    else if p = "root/QuestLines" then .ok ["Line1"]
    else if p = "root/QuestLines/Line1" then .ok ["QuestLine.json", "entry1.json"]
    else .error .ioErr
  is_dir p :=
    p = "root" || p = "root/Quests" || p = "root/QuestLines" ||
    p = "root/QuestLines/Line1"
  is_file p :=
    p = "root/Quests/quest1.json" ||
    p = "root/QuestLines/Line1/QuestLine.json" ||
    p = "root/QuestLines/Line1/entry1.json"
  read_json p :=
    if p = "root/Quests/quest1.json" then
      .ok (.obj [("questIDHigh", .num 0), ("questIDLow", .num 1),
        ("properties", .obj [("betterquesting", .obj [("name", .str "Test Quest")])])])
    else if p = "root/QuestLines/Line1/QuestLine.json" then
      .ok (.obj [("questLineIDHigh", .num 0), ("questLineIDLow", .num 100)])
    else if p = "root/QuestLines/Line1/entry1.json" then
      .ok (.obj [("questIDHigh", .num 0), ("questIDLow", .num 1),
        ("x", .num 10), ("y", .num 20)])
    else .error .ioErr

/-- The quest loaded from `srcOK`. -/
def questOK : Quest :=
  ⟨⟨1⟩,
   some ⟨"Test Quest", none, none, none, none, none, none, none, none, none,
     none, none, none, none, none, none, none, none, []⟩,
   [], [], [], [], []⟩

/-- The questline entry loaded from `srcOK`. -/
def entryOK : QuestLineEntry := ⟨none, ⟨1⟩, some 10, some 20, none, none, []⟩

/-- The database loaded from `srcOK`. -/
def dbOK : QuestDatabase :=
  ⟨none, [(⟨1⟩, questOK)], [(⟨100⟩, ⟨⟨100⟩, none, [entryOK], []⟩)], [⟨100⟩]⟩

/-- C9, witness: the resolution guarantee applied to the concrete
successful load. -/
theorem C9_witness :
    (hmGet dbOK.quests entryOK.quest_id).isSome = true :=
  C9_theorem.1 srcOK "root" dbOK (by decide)
    (⟨100⟩, ⟨⟨100⟩, none, [entryOK], []⟩) (by decide) entryOK (by decide)

/-- C10, witness: the properties guarantee applied to the concrete
successful load. -/
theorem C10_witness :
    ((⟨1⟩, questOK) : QId × Quest).2.properties.isSome = true :=
  C10_theorem.2 srcOK "root" dbOK (by decide) (⟨1⟩, questOK) (by decide)

/-! ## Claim C6: the importance scoring formula -/

/-- The weight of the dependent edge from `q` into the quest entry `d`,
written directly from the spec: an XOR quest contributes no edges; a
required prerequisite weighs 1; each optional prerequisite weighs
`1/|optional group|` (both after the order-preserving dedup). -/
def specEdgeWeight (d : QId × Quest) (q : QId) : ℚ :=
  if isXorQuest d.2 then 0
  else
    (if q ∈ (questDedup d.2).1 then 1 else 0) +
    (if q ∈ (questDedup d.2).2 then 1 / (((questDedup d.2).2.length : ℚ)) else 0)

/-- `raw(q)` of the spec: the sum of the weights of the edges from `q` into
its dependents. -/
def specRaw (quests : List (QId × Quest)) (q : QId) : ℚ :=
  (quests.map fun d => specEdgeWeight d q).sum

/-- The one-hop propagation sum of the spec:
`Σ_(d : q → d edge) weight(q → d) · raw(d)`. -/
def specProp (quests : List (QId × Quest)) (q : QId) : ℚ :=
  (quests.map fun d => specEdgeWeight d q * specRaw quests d.1).sum

/-- The dependents entry of a key. -/
def entryList (deps : List (QId × List (QId × ℚ))) (q : QId) : List (QId × ℚ) :=
  (hmGet deps q).getD []

/-- Weighted sum of a dependents entry under a valuation of the dependents
(the shape of both the `raw` and the propagation folds). -/
def depWeightSum (f : QId → ℚ) (deps : List (QId × List (QId × ℚ)))
    (q : QId) : ℚ :=
  ((entryList deps q).map fun dw => dw.2 * f dw.1).sum

theorem hmGet_hmInsert {α β : Type} [DecidableEq α] (k q : α) (v : β) :
    ∀ m : List (α × β), hmGet (hmInsert m k v) q =
      if k = q then some v else hmGet m q
  | [] => by
    by_cases h : k = q <;> simp [hmInsert, hmGet, h]
  | (k0, v0) :: rest => by
    by_cases h0 : k0 = k
    · subst h0
      by_cases h : k0 = q <;> simp [hmInsert, hmGet, h]
    · simp only [hmInsert, if_neg h0]
      by_cases h : k0 = q
      · subst h
        have : ¬ k = k0 := fun hc => h0 hc.symm
        simp [hmGet, this]
      · simp [hmGet, h, hmGet_hmInsert k q v rest]

theorem entryList_multiPush (deps : List (QId × List (QId × ℚ)))
    (k : QId) (x : QId × ℚ) (q : QId) :
    entryList (multiPush deps k x) q =
      if k = q then entryList deps q ++ [x] else entryList deps q := by
  induction deps with
  | nil => by_cases h : k = q <;> simp [multiPush, entryList, hmGet, h]
  | cons p rest ih =>
    rcases p with ⟨k0, l⟩
    by_cases h0 : k0 = k
    · subst h0
      by_cases h : k0 = q
      · subst h
        simp [multiPush, entryList, hmGet]
      · simp [multiPush, entryList, hmGet, h]
    · simp only [multiPush, if_neg h0]
      by_cases h : k0 = q
      · subst h
        have hkq : ¬ k = k0 := fun hc => h0 hc.symm
        simp [entryList, hmGet, hkq]
      · simpa [entryList, hmGet, h] using ih

theorem depWeightSum_multiPush (f : QId → ℚ)
    (deps : List (QId × List (QId × ℚ))) (k : QId) (x : QId × ℚ) (q : QId) :
    depWeightSum f (multiPush deps k x) q =
      depWeightSum f deps q + (if k = q then x.2 * f x.1 else 0) := by
  unfold depWeightSum
  rw [entryList_multiPush]
  by_cases h : k = q <;> simp [h]

/-- Pushing one entry for every member of a duplicate-free list adds the
weight exactly when `q` is a member. -/
theorem depWeightSum_pushList (f : QId → ℚ) (key : QId) (w : ℚ) (q : QId) :
    ∀ (ps : List QId) (deps : List (QId × List (QId × ℚ))), ps.Nodup →
      depWeightSum f (ps.foldl (fun d pr => multiPush d pr (key, w)) deps) q =
        depWeightSum f deps q + (if q ∈ ps then w * f key else 0)
  | [], deps, _ => by simp
  | pr :: ps, deps, hnd => by
    simp only [List.foldl_cons]
    rw [depWeightSum_pushList f key w q ps _ (List.Nodup.of_cons hnd),
      depWeightSum_multiPush]
    by_cases hq : pr = q
    · subst hq
      have hnotin : pr ∉ ps := (List.nodup_cons.mp hnd).1
      simp [hnotin]
    · have hqpr : ¬ q = pr := fun h => hq h.symm
      by_cases hmem : q ∈ ps <;> simp [hmem, hq, hqpr]

/-- Members of a dedup result were not already seen. -/
theorem dedupStep_not_seen :
    ∀ (l : List QId) (seen : List Nat) (x : QId),
      x ∈ (dedupStep l seen).1 → x.as_u64 ∉ seen
  | [], _, x, hx => by simp [dedupStep] at hx
  | p :: rest, seen, x, hx => by
    by_cases hp : p.as_u64 ∈ seen
    · rw [dedupStep, if_pos hp] at hx
      exact dedupStep_not_seen rest seen x hx
    · rw [dedupStep, if_neg hp] at hx
      rcases hr : dedupStep rest (p.as_u64 :: seen) with ⟨r, s⟩
      rw [hr] at hx
      simp only at hx
      rcases List.mem_cons.mp hx with rfl | hm
      · exact hp
      · have := dedupStep_not_seen rest (p.as_u64 :: seen) x (by rw [hr]; exact hm)
        exact fun hc => this (by simp [hc])

/-- Dedup results are duplicate-free. -/
theorem dedupStep_nodup :
    ∀ (l : List QId) (seen : List Nat), (dedupStep l seen).1.Nodup
  | [], _ => by simp [dedupStep]
  | p :: rest, seen => by
    by_cases hp : p.as_u64 ∈ seen
    · rw [dedupStep, if_pos hp]
      exact dedupStep_nodup rest seen
    · rw [dedupStep, if_neg hp]
      rcases hr : dedupStep rest (p.as_u64 :: seen) with ⟨r, s⟩
      simp only [List.nodup_cons]
      constructor
      · intro hm
        have := dedupStep_not_seen rest (p.as_u64 :: seen) p (by rw [hr]; exact hm)
        exact this (by simp)
      · have := dedupStep_nodup rest (p.as_u64 :: seen)
        rwa [hr] at this

/-- The two dedup components of a quest, unfolded. -/
theorem questDedup_eq (quest : Quest) :
    questDedup quest = ((dedupStep (questRequiredBase quest) []).1,
      (dedupStep quest.optional_prerequisites
        (dedupStep (questRequiredBase quest) []).2).1) := by
  unfold questDedup
  rcases h1 : dedupStep (questRequiredBase quest) [] with ⟨r, s⟩
  rcases h2 : dedupStep quest.optional_prerequisites s with ⟨o, s2⟩
  simp [h1, h2]

/-- Both dedup components are duplicate-free. -/
theorem questDedup_nodup (quest : Quest) :
    (questDedup quest).1.Nodup ∧ (questDedup quest).2.Nodup := by
  rw [questDedup_eq]
  exact ⟨dedupStep_nodup _ _, dedupStep_nodup _ _⟩

/-- One graph-construction step adds exactly the spec edge weight into the
weighted sum of each key. -/
theorem depWeightSum_buildGraphStep (f : QId → ℚ)
    (st : List (QId × List QId) × List (QId × List (QId × ℚ)))
    (p : QId × Quest) (q : QId) :
    depWeightSum f (buildGraphStep st p).2 q =
      depWeightSum f st.2 q + specEdgeWeight p q * f p.1 := by
  rcases st with ⟨adj, deps⟩
  by_cases hx : isXorQuest p.2
  · simp [buildGraphStep, hx, specEdgeWeight]
  · have hnd := questDedup_nodup p.2
    rcases hd : questDedup p.2 with ⟨required, optionals⟩
    rw [hd] at hnd
    simp only [buildGraphStep, hd, specEdgeWeight]
    rw [if_neg hx, if_neg hx]
    dsimp only
    by_cases hopt : optionals = []
    · subst hopt
      rw [if_pos rfl]
      rw [depWeightSum_pushList f p.1 1 q required deps hnd.1]
      by_cases hq : q ∈ required <;> simp [hq]
    · rw [if_neg hopt]
      rw [depWeightSum_pushList f p.1 _ q optionals _ hnd.2,
        depWeightSum_pushList f p.1 1 q required deps hnd.1]
      by_cases hq : q ∈ required <;> by_cases ho : q ∈ optionals <;>
        simp [hq, ho, add_mul, add_assoc]

/-- Folding the construction over a quest list accumulates the spec edge
weights. -/
theorem depWeightSum_buildGraph_fold (f : QId → ℚ) (q : QId) :
    ∀ (quests : List (QId × Quest))
      (st : List (QId × List QId) × List (QId × List (QId × ℚ))),
      depWeightSum f (quests.foldl buildGraphStep st).2 q =
        depWeightSum f st.2 q +
          (quests.map fun p => specEdgeWeight p q * f p.1).sum
  | [], st => by simp
  | p :: quests, st => by
    simp only [List.foldl_cons, List.map_cons, List.sum_cons]
    rw [depWeightSum_buildGraph_fold f q quests _, depWeightSum_buildGraphStep]
    ring

/-- The dependents map of the constructed graph realizes the spec edge
weights. -/
theorem depWeightSum_buildGraph (f : QId → ℚ) (quests : List (QId × Quest))
    (q : QId) :
    depWeightSum f (buildGraph quests).2 q =
      (quests.map fun p => specEdgeWeight p q * f p.1).sum := by
  unfold buildGraph
  rw [depWeightSum_buildGraph_fold]
  simp [depWeightSum, entryList, hmGet]

theorem foldl_add_map {α : Type} (g : α → ℚ) :
    ∀ (l : List α) (init : ℚ),
      l.foldl (fun acc x => acc + g x) init = init + (l.map g).sum
  | [], init => by simp
  | x :: l, init => by
    simp only [List.foldl_cons, List.map_cons, List.sum_cons]
    rw [foldl_add_map g l]
    ring

/-- The `raw` fold is the weighted sum under the constant valuation 1. -/
theorem rawScore_eq_depWeightSum (deps : List (QId × List (QId × ℚ)))
    (q : QId) : rawScore deps q = depWeightSum (fun _ => 1) deps q := by
  unfold rawScore depWeightSum entryList
  rw [show (fun (acc : ℚ) (p : QId × ℚ) => acc + p.2) =
    (fun acc p => acc + Prod.snd p) from rfl, foldl_add_map Prod.snd]
  simp [mul_one]

/-- `raw` on the constructed graph is the spec `raw`. -/
theorem rawScore_buildGraph (quests : List (QId × Quest)) (q : QId) :
    rawScore (buildGraph quests).2 q = specRaw quests q := by
  rw [rawScore_eq_depWeightSum, depWeightSum_buildGraph]
  simp [specRaw, mul_one]

/-- Lookup after inserting a value for every key of a quest list. -/
theorem hmGet_foldl_insert (g : QId → ℚ) :
    ∀ (quests : List (QId × Quest)) (b0 : List (QId × ℚ)) (q : QId),
      hmGet (quests.foldl (fun b p => hmInsert b p.1 (g p.1)) b0) q =
        if q ∈ quests.map Prod.fst then some (g q) else hmGet b0 q
  | [], b0, q => by simp
  | p :: quests, b0, q => by
    simp only [List.foldl_cons, List.map_cons]
    rw [hmGet_foldl_insert g quests _ q]
    by_cases hmem : q ∈ quests.map Prod.fst
    · simp [hmem]
    · by_cases hq : q = p.1
      · simp [hmem, hq, hmGet_hmInsert]
      · have hq' : ¬ p.1 = q := fun h => hq h.symm
        simp [hmem, hq, hq', hmGet_hmInsert]

/-- Lookup in the `base` map with `use_log = false`. -/
theorem computeBase_lookup (lnF : ℚ → ℚ) (deps : List (QId × List (QId × ℚ)))
    (quests : List (QId × Quest)) (q : QId) :
    hmGet (computeBase lnF false deps quests) q =
      if q ∈ quests.map Prod.fst then some (rawScore deps q) else none := by
  unfold computeBase
  exact hmGet_foldl_insert (fun x => rawScore deps x) quests [] q

/-- Lookup in the `score` map. -/
theorem computeScores_lookup (alpha : ℚ) (deps : List (QId × List (QId × ℚ)))
    (base : List (QId × ℚ)) (quests : List (QId × Quest)) (q : QId)
    (hmem : q ∈ quests.map Prod.fst) :
    hmGet (computeScores alpha deps base quests) q =
      some ((hmGet base q).getD 0 +
        alpha * depWeightSum (fun d => (hmGet base d).getD 0) deps q) := by
  unfold computeScores
  rw [hmGet_foldl_insert
    (fun x => (hmGet base x).getD 0 +
      alpha * ((hmGet deps x).getD []).foldl
        (fun acc dw => acc + dw.2 * ((hmGet base dw.1).getD 0)) 0)
    quests [] q, if_pos hmem]
  rw [show (fun (acc : ℚ) (dw : QId × ℚ) =>
      acc + dw.2 * ((hmGet base dw.1).getD 0)) =
    (fun acc dw => acc + (fun y : QId × ℚ => y.2 * ((hmGet base y.1).getD 0)) dw)
    from rfl, foldl_add_map]
  simp [depWeightSum, entryList]

/-- The quest chain of the C6 example: `(0,2)` requires `(0,1)` and `(0,3)`
requires `(0,2)`. -/
def chainDb : QuestDatabase :=
  ⟨none,
   [(⟨1⟩, ⟨⟨1⟩, none, [], [], [], [], []⟩),
    (⟨2⟩, ⟨⟨2⟩, none, [], [], [⟨1⟩], [⟨1⟩], []⟩),
    (⟨3⟩, ⟨⟨3⟩, none, [], [], [⟨2⟩], [⟨2⟩], []⟩)], [], []⟩

unseal Rat.add Rat.mul in
/-- C6: with `use_log = false` and `normalize = false`, every returned
score map assigns each quest `raw(q) + alpha · Σ weight(q→d) · raw(d)`
over the spec edge weights, and on the chain example with `alpha = 1/2`
the scores are exactly 3/2, 1 and 0. -/
theorem C6_theorem :
    (∀ (lnF : ℚ → ℚ) (db : QuestDatabase) (alpha : ℚ)
      (scores : List (QId × ℚ)),
      compute_importance_scores lnF db alpha false false = .ok scores →
      ∀ q ∈ db.quests.map Prod.fst,
        hmGet scores q =
          some (specRaw db.quests q + alpha * specProp db.quests q)) ∧
    compute_importance_scores id chainDb (mkRat 1 2) false false =
      .ok [(⟨1⟩, mkRat 3 2), (⟨2⟩, 1), (⟨3⟩, 0)] := by
  constructor
  · intro lnF db alpha scores h q hq
    simp only [compute_importance_scores] at h
    split at h
    · exact absurd h (by simp)
    · rcases hbg : buildGraph db.quests with ⟨adj, deps⟩
      rw [hbg] at h
      dsimp only at h
      rcases hdfs : dfsAll adj (db.quests.length + 1) (db.quests.map Prod.fst)
        ⟨initColor db.quests, [], [], []⟩ with ⟨st, r⟩
      rw [hdfs] at h
      cases r with
      | some cycle => exact absurd h (by simp)
      | none =>
        rw [if_neg Bool.false_ne_true] at h
        simp only [Except.ok.injEq] at h
        have hdeps : deps = (buildGraph db.quests).2 := by rw [hbg]
        subst hdeps
        rw [← h, computeScores_lookup _ _ _ _ _ hq]
        rw [computeBase_lookup, if_pos hq, Option.getD_some, rawScore_buildGraph]
        have hprop : depWeightSum
            (fun d => (hmGet (computeBase lnF false (buildGraph db.quests).2
              db.quests) d).getD 0) (buildGraph db.quests).2 q =
            specProp db.quests q := by
          rw [depWeightSum_buildGraph, specProp]
          refine congrArg List.sum (List.map_congr_left ?_)
          intro p hp
          rw [computeBase_lookup, if_pos (List.mem_map_of_mem Prod.fst hp),
            Option.getD_some, rawScore_buildGraph]
        rw [hprop]
  · decide

unseal Rat.add Rat.mul in
/-- C6, witness: the scoring formula applied to the chain example. -/
theorem C6_witness :
    hmGet [((⟨1⟩ : QId), mkRat 3 2), (⟨2⟩, 1), (⟨3⟩, 0)] (⟨1⟩ : QId) =
      some (specRaw chainDb.quests ⟨1⟩ +
        mkRat 1 2 * specProp chainDb.quests ⟨1⟩) :=
  C6_theorem.1 id chainDb (mkRat 1 2)
    [(⟨1⟩, mkRat 3 2), (⟨2⟩, 1), (⟨3⟩, 0)] (by decide) ⟨1⟩ (by decide)

/-! ## Claim C7: error conditions of the importance analyzer

The cycle notion is stated on the adjacency produced by the graph
construction (XOR quests contribute no entry): an edge goes from a quest to
each listed prerequisite. -/

/-- `p` is a successor (listed prerequisite) of `q` in the adjacency. -/
def hasEdge (adj : List (QId × List QId)) (q p : QId) : Prop :=
  p ∈ (hmGet adj q).getD []

/-- The adjacency contains a directed cycle. -/
def hasCycle (adj : List (QId × List QId)) : Prop :=
  ∃ q, Relation.TransGen (hasEdge adj) q q

/-- Consecutive elements of the list are adjacency edges (the shape of the
DFS gray stack). -/
def isEChain (adj : List (QId × List QId)) : List QId → Prop
  | [] => True
  | [_] => True
  | a :: b :: rest => hasEdge adj a b ∧ isEChain adj (b :: rest)

theorem isEChain_tail (adj : List (QId × List QId)) (y : QId) :
    ∀ rest : List QId, isEChain adj (y :: rest) → isEChain adj rest
  | [], _ => trivial
  | _ :: _, h => h.2

theorem isEChain_snoc (adj : List (QId × List QId)) (b : QId) :
    ∀ (l : List QId) (a : QId), isEChain adj (l ++ [a]) → hasEdge adj a b →
      isEChain adj ((l ++ [a]) ++ [b])
  | [], a, _, he => ⟨he, trivial⟩
  | [x], a, h, he => ⟨h.1, he, trivial⟩
  | x :: y :: l, a, h, he => ⟨h.1, isEChain_snoc adj b (y :: l) a h.2 he⟩

theorem isEChain_dropLast (adj : List (QId × List QId)) :
    ∀ (l : List QId) (a : QId), isEChain adj (l ++ [a]) → isEChain adj l
  | [], _, _ => trivial
  | [_], _, _ => trivial
  | x :: y :: l, a, h => ⟨h.1, isEChain_dropLast adj (y :: l) a h.2⟩

/-- Every member of a chain reaches the last element (or is the last). -/
theorem isEChain_mem_transGen (adj : List (QId × List QId)) :
    ∀ (l : List QId) (a x : QId), isEChain adj (l ++ [a]) → x ∈ l ++ [a] →
      x = a ∨ Relation.TransGen (hasEdge adj) x a
  | [], a, x, _, hx => .inl (by simpa using hx)
  | y :: l, a, x, h, hx => by
    rcases List.mem_cons.mp hx with rfl | hx'
    · cases l with
      | nil => exact .inr (Relation.TransGen.single h.1)
      | cons z l' =>
        rcases isEChain_mem_transGen adj (z :: l') a z h.2 (by simp) with rfl | ht
        · exact .inr (Relation.TransGen.single h.1)
        · exact .inr (Relation.TransGen.head h.1 ht)
    · refine isEChain_mem_transGen adj l a x ?_ hx'
      cases l with
      | nil => trivial
      | cons z l' => exact h.2

/-- The key of every adjacency entry of the constructed graph is a quest
key. -/
theorem buildGraph_adjDom_fold :
    ∀ (quests : List (QId × Quest))
      (st : List (QId × List QId) × List (QId × List (QId × ℚ))) (q : QId),
      (hmGet (quests.foldl buildGraphStep st).1 q).isSome →
      (hmGet st.1 q).isSome ∨ q ∈ quests.map Prod.fst
  | [], st, q, h => .inl h
  | p :: quests, st, q, h => by
    rcases buildGraph_adjDom_fold quests (buildGraphStep st p) q h with h1 | h1
    · rcases st with ⟨adj, deps⟩
      by_cases hx : isXorQuest p.2
      · simp only [buildGraphStep, if_pos hx] at h1
        exact .inl h1
      · simp only [buildGraphStep, if_neg hx] at h1
        rcases hd : questDedup p.2 with ⟨required, optionals⟩
        rw [hd] at h1
        dsimp only at h1
        rw [hmGet_hmInsert] at h1
        by_cases hq : p.1 = q
        · exact .inr (by simp [← hq])
        · rw [if_neg hq] at h1
          exact .inl h1
    · exact .inr (by simp [h1])

/-- Adjacency domain of the constructed graph. -/
theorem buildGraph_adjDom (quests : List (QId × Quest)) (q : QId)
    (h : (hmGet (buildGraph quests).1 q).isSome) : q ∈ quests.map Prod.fst := by
  rcases buildGraph_adjDom_fold quests ([], []) q h with h1 | h1
  · simp [hmGet] at h1
  · exact h1

/-- Number of white entries of a color map. -/
def wcount (color : List (QId × Color)) : Nat :=
  (color.filter fun p => p.2 = Color.white).length

/-- Invariant bundle of the DFS state: the color map covers exactly the
quest keys, gray nodes are exactly the stack (which is a duplicate-free
edge chain), black nodes are exactly the finished list, and finished nodes
topologically dominate their in-key successors. -/
structure DfsInv (adj : List (QId × List QId)) (allKeys : List QId)
    (s : DfsSt) : Prop where
  colorDom : ∀ q : QId, (hmGet s.color q).isSome ↔ q ∈ allKeys
  colorKeysNodup : (s.color.map Prod.fst).Nodup
  grayStack : ∀ q : QId, hmGet s.color q = some Color.gray ↔ q ∈ s.stack
  stackNodup : s.stack.Nodup
  stackChain : isEChain adj s.stack
  blackFin : ∀ q : QId, hmGet s.color q = some Color.black ↔ q ∈ s.finished
  finNodup : s.finished.Nodup
  topo : ∀ u v : QId, u ∈ s.finished → hasEdge adj u v → v ∈ allKeys →
    v ∈ s.finished ∧ s.finished.indexOf v < s.finished.indexOf u

/-- Replacing the value of a present key leaves the key list unchanged. -/
theorem hmInsert_keys_of_mem {α β : Type} [DecidableEq α] :
    ∀ (m : List (α × β)) (k : α) (v : β), (hmGet m k).isSome →
      (hmInsert m k v).map Prod.fst = m.map Prod.fst
  | [], k, v, h => by simp [hmGet] at h
  | (k0, v0) :: rest, k, v, h => by
    by_cases hk : k0 = k
    · simp [hmInsert, hk]
    · have h' : (hmGet rest k).isSome := by
        simpa [hmGet, hk] using h
      simp [hmInsert, hk, hmInsert_keys_of_mem rest k v h']

/-- Filtered length difference under replacement of a present key, with
duplicate-free keys. -/
theorem filter_length_hmInsert {α β : Type} [DecidableEq α] (P : α × β → Bool) :
    ∀ (m : List (α × β)) (k : α) (v w : β), hmGet m k = some w →
      (m.map Prod.fst).Nodup →
      ((hmInsert m k v).filter P).length + (if P (k, w) then 1 else 0) =
        (m.filter P).length + (if P (k, v) then 1 else 0)
  | [], k, v, w, h, _ => by simp [hmGet] at h
  | (k0, v0) :: rest, k, v, w, h, hnd => by
    by_cases hk : k0 = k
    · subst hk
      have hw : v0 = w := by simpa [hmGet] using h
      subst hw
      simp only [hmInsert, if_pos rfl, List.filter_cons]
      by_cases h1 : P (k0, v) = true <;> by_cases h2 : P (k0, v0) = true <;>
        simp [h1, h2] <;> omega
    · have h' : hmGet rest k = some w := by simpa [hmGet, hk] using h
      have hnd' : (rest.map Prod.fst).Nodup := by
        simpa using (List.nodup_cons.mp (by simpa using hnd)).2
      have IH := filter_length_hmInsert P rest k v w h' hnd'
      simp only [hmInsert, if_neg hk, List.filter_cons]
      by_cases h1 : P (k0, v0) = true
      · simp only [h1, if_true, List.length_cons]
        omega
      · simp only [h1, if_neg Bool.false_ne_true]
        omega

/-- Recoloring a white node to a non-white color removes one white entry. -/
theorem wcount_insert_of_white {color : List (QId × Color)} {node : QId}
    (c : Color) (hc : c ≠ Color.white)
    (h : hmGet color node = some Color.white)
    (hnd : (color.map Prod.fst).Nodup) :
    wcount (hmInsert color node c) + 1 = wcount color := by
  have := filter_length_hmInsert (fun p => p.2 = Color.white) color node c
    Color.white h hnd
  simpa [wcount, hc] using this

/-- Recoloring a non-white node to another non-white color keeps the white
count. -/
theorem wcount_insert_of_nonwhite {color : List (QId × Color)} {node : QId}
    (c w : Color) (hc : c ≠ Color.white) (hw : w ≠ Color.white)
    (h : hmGet color node = some w)
    (hnd : (color.map Prod.fst).Nodup) :
    wcount (hmInsert color node c) = wcount color := by
  have := filter_length_hmInsert (fun p => p.2 = Color.white) color node c w h hnd
  simpa [wcount, hc, hw] using this

/-- Keys of an insertion come from the map or are the inserted key. -/
theorem hmInsert_keys_sub {α β : Type} [DecidableEq α] :
    ∀ (m : List (α × β)) (k x : α) (v : β),
      x ∈ (hmInsert m k v).map Prod.fst → x ∈ m.map Prod.fst ∨ x = k
  | [], k, x, v, h => by simpa [hmInsert] using h
  | (k0, v0) :: rest, k, x, v, h => by
    by_cases hk : k0 = k
    · subst hk
      exact .inl (by simpa [hmInsert] using h)
    · simp only [hmInsert, if_neg hk, List.map_cons, List.mem_cons] at h
      rcases h with rfl | h
      · exact .inl (by simp)
      · rcases hmInsert_keys_sub rest k x v h with h1 | h1
        · exact .inl (by simp [h1])
        · exact .inr h1

/-- Insertion preserves duplicate-freedom of the keys. -/
theorem hmInsert_keys_nodup {α β : Type} [DecidableEq α] :
    ∀ (m : List (α × β)) (k : α) (v : β), (m.map Prod.fst).Nodup →
      ((hmInsert m k v).map Prod.fst).Nodup
  | [], k, v, _ => by simp [hmInsert]
  | (k0, v0) :: rest, k, v, hnd => by
    simp only [List.map_cons, List.nodup_cons] at hnd
    by_cases hk : k0 = k
    · subst hk
      simp only [hmInsert, eq_self_iff_true, if_true, List.map_cons, List.nodup_cons]
      exact hnd
    · simp only [hmInsert, if_neg hk, List.map_cons, List.nodup_cons]
      refine ⟨?_, hmInsert_keys_nodup rest k v hnd.2⟩
      intro hmem
      rcases hmInsert_keys_sub rest k k0 v hmem with h1 | h1
      · exact hnd.1 h1
      · exact hk h1

/-- Lookup in the initial coloring: every quest key is white. -/
theorem initColor_lookup (quests : List (QId × Quest)) (q : QId) :
    hmGet (initColor quests) q =
      if q ∈ quests.map Prod.fst then some Color.white else none := by
  have main : ∀ (l : List (QId × Quest)) (c0 : List (QId × Color)),
      hmGet (l.foldl (fun c p => hmInsert c p.1 Color.white) c0) q =
        if q ∈ l.map Prod.fst then some Color.white else hmGet c0 q := by
    intro l
    induction l with
    | nil => intro c0; simp
    | cons p rest ih =>
      intro c0
      simp only [List.foldl_cons, List.map_cons]
      rw [ih]
      by_cases hmem : q ∈ rest.map Prod.fst
      · simp [hmem]
      · by_cases hq : q = p.1
        · simp [hmem, hq, hmGet_hmInsert]
        · have hq' : ¬ p.1 = q := fun h => hq h.symm
          simp [hmem, hq, hq', hmGet_hmInsert]
  have := main quests []
  simpa [initColor, hmGet] using this

/-- The initial coloring has duplicate-free keys. -/
theorem initColor_keys_nodup (quests : List (QId × Quest)) :
    ((initColor quests).map Prod.fst).Nodup := by
  have main : ∀ (l : List (QId × Quest)) (c0 : List (QId × Color)),
      (c0.map Prod.fst).Nodup →
      ((l.foldl (fun c p => hmInsert c p.1 Color.white) c0).map Prod.fst).Nodup := by
    intro l
    induction l with
    | nil => intro c0 h; simpa using h
    | cons p rest ih =>
      intro c0 h
      exact ih _ (hmInsert_keys_nodup c0 p.1 Color.white h)
  exact main quests [] (by simp)

/-- The initial coloring is no longer than the quest list. -/
theorem initColor_length_le (quests : List (QId × Quest)) :
    (initColor quests).length ≤ quests.length := by
  have hstep : ∀ {α β : Type} [DecidableEq α] (m : List (α × β)) (k : α) (v : β),
      (hmInsert m k v).length ≤ m.length + 1 := by
    intro α β _ m
    induction m with
    | nil => intro k v; simp [hmInsert]
    | cons p rest ih =>
      intro k v
      rcases p with ⟨k0, v0⟩
      by_cases hk : k0 = k
      · simp [hmInsert, hk]
      · simp only [hmInsert, if_neg hk, List.length_cons]
        have := ih k v
        omega
  have main : ∀ (l : List (QId × Quest)) (c0 : List (QId × Color)),
      (l.foldl (fun c p => hmInsert c p.1 Color.white) c0).length ≤
        c0.length + l.length := by
    intro l
    induction l with
    | nil => intro c0; simp
    | cons p rest ih =>
      intro c0
      simp only [List.foldl_cons, List.length_cons]
      have h1 := ih (hmInsert c0 p.1 Color.white)
      have h2 := hstep c0 p.1 Color.white
      omega
  simpa [initColor] using main quests []

/-- The white count is bounded by the color-map length. -/
theorem wcount_le_length (color : List (QId × Color)) :
    wcount color ≤ color.length := by
  simpa [wcount] using List.length_filter_le (fun p => p.2 = Color.white) color

/-- Once a cycle is recorded, the successor fold is the identity. -/
theorem foldl_neighborStep_some
    (f : QId → DfsSt → DfsSt × Option (List QId)) (node : QId) :
    ∀ (l : List QId) (s : DfsSt) (c : List QId),
      l.foldl (neighborStep f node) (s, some c) = (s, some c)
  | [], _, _ => rfl
  | x :: l, s, c => foldl_neighborStep_some f node l s c

/-- Postcondition of a clean (cycle-free) `dfs_visit` call on a white node:
the invariant is preserved, the stack is restored, the node is black, gray
and black nodes are preserved, no node whitens, and the white count drops. -/
structure VisitPost (adj : List (QId × List QId)) (allKeys : List QId)
    (node : QId) (s s' : DfsSt) : Prop where
  inv : DfsInv adj allKeys s'
  stackEq : s'.stack = s.stack
  nodeBlack : hmGet s'.color node = some Color.black
  grayPres : ∀ q, hmGet s.color q = some Color.gray →
    hmGet s'.color q = some Color.gray
  blackPres : ∀ q, hmGet s.color q = some Color.black →
    hmGet s'.color q = some Color.black
  whiteBack : ∀ q, hmGet s'.color q = some Color.white →
    hmGet s.color q = some Color.white
  wlt : wcount s'.color < wcount s.color

/-- Postcondition of a clean pass over a successor list: as above (without
a white-count drop), and every processed successor ends black or outside
the key set. -/
structure FoldPost (adj : List (QId × List QId)) (allKeys : List QId)
    (neis : List QId) (s s' : DfsSt) : Prop where
  inv : DfsInv adj allKeys s'
  stackEq : s'.stack = s.stack
  grayPres : ∀ q, hmGet s.color q = some Color.gray →
    hmGet s'.color q = some Color.gray
  blackPres : ∀ q, hmGet s.color q = some Color.black →
    hmGet s'.color q = some Color.black
  whiteBack : ∀ q, hmGet s'.color q = some Color.white →
    hmGet s.color q = some Color.white
  wle : wcount s'.color ≤ wcount s.color
  covered : ∀ x ∈ neis, x ∉ allKeys ∨ hmGet s'.color x = some Color.black

mutual
/-- Correctness of `dfs_visit` on a white node with sufficient fuel: either
a cycle is reported and the adjacency really has a directed cycle, or the
call returns cleanly with the `VisitPost` guarantees. -/
theorem dfsVisit_spec (adj : List (QId × List QId)) (allKeys : List QId) :
    ∀ (fuel : Nat) (node : QId) (s : DfsSt),
      wcount s.color < fuel →
      DfsInv adj allKeys s →
      hmGet s.color node = some Color.white →
      isEChain adj (s.stack ++ [node]) →
      (∃ s' c, dfsVisit adj fuel node s = (s', some c) ∧ hasCycle adj) ∨
      (∃ s', dfsVisit adj fuel node s = (s', none) ∧
        VisitPost adj allKeys node s s')
  | 0, node, s, hfuel, _, _, _ => absurd hfuel (by omega)
  | fuel + 1, node, s, hfuel, hinv, hwhite, hchain => by
    have hnodeKeys : node ∈ allKeys := (hinv.colorDom node).mp (by rw [hwhite]; rfl)
    have hnstack : node ∉ s.stack := by
      intro hm
      have h := (hinv.grayStack node).mpr hm
      rw [hwhite] at h
      exact absurd (Option.some.inj h) (by simp)
    have hnfin : node ∉ s.finished := by
      intro hm
      have h := (hinv.blackFin node).mpr hm
      rw [hwhite] at h
      exact absurd (Option.some.inj h) (by simp)
    have hinv1 : DfsInv adj allKeys ⟨hmInsert s.color node Color.gray,
        s.stack ++ [node], hmInsert s.pos node.as_u64 s.stack.length,
        s.finished⟩ := by
      refine ⟨?_, ?_, ?_, ?_, ?_, ?_, ?_, ?_⟩
      · intro q
        simp only [hmGet_hmInsert]
        by_cases hq : node = q
        · simp [hq] at hnodeKeys ⊢
          exact hq ▸ hnodeKeys
        · simpa [hq] using hinv.colorDom q
      · exact hmInsert_keys_nodup _ _ _ hinv.colorKeysNodup
      · intro q
        simp only [hmGet_hmInsert]
        by_cases hq : node = q
        · subst hq
          simp
        · have hq' : ¬ q = node := fun h => hq h.symm
          simp only [if_neg hq, List.mem_append, List.mem_singleton]
          rw [hinv.grayStack q]
          simp [hq']
      · simpa [List.nodup_append] using ⟨hinv.stackNodup, fun h => hnstack h⟩
      · exact hchain
      · intro q
        simp only [hmGet_hmInsert]
        by_cases hq : node = q
        · subst hq
          simp only [if_pos rfl]
          constructor
          · intro h
            exact absurd (Option.some.inj h) (by simp)
          · intro h
            exact absurd h hnfin
        · simpa [hq] using hinv.blackFin q
      · exact hinv.finNodup
      · exact hinv.topo
    have hw1 : wcount (hmInsert s.color node Color.gray) + 1 = wcount s.color :=
      wcount_insert_of_white Color.gray (by simp) hwhite hinv.colorKeysNodup
    have hf1 : wcount (hmInsert s.color node Color.gray) < fuel := by omega
    rcases dfsFold_spec adj allKeys fuel ((hmGet adj node).getD []) node s.stack
        ⟨hmInsert s.color node Color.gray, s.stack ++ [node],
          hmInsert s.pos node.as_u64 s.stack.length, s.finished⟩
        hf1 hinv1 rfl (fun x hx => hx) with
      ⟨s2, c, hfold, hcyc⟩ | ⟨s2, hfold, hpost⟩
    · left
      exact ⟨s2, c, by simp only [dfsVisit]; rw [hfold], hcyc⟩
    · right
      have hnodegray1 : hmGet (hmInsert s.color node Color.gray) node =
          some Color.gray := by simp [hmGet_hmInsert]
      have hnodegray2 : hmGet s2.color node = some Color.gray :=
        hpost.grayPres node hnodegray1
      have hs2stack : s2.stack = s.stack ++ [node] := hpost.stackEq
      have hnfin2 : node ∉ s2.finished := by
        intro hm
        have h := (hpost.inv.blackFin node).mpr hm
        rw [hnodegray2] at h
        exact absurd (Option.some.inj h) (by simp)
      refine ⟨⟨hmInsert s2.color node Color.black, s2.stack.dropLast,
        hmRemove s2.pos node.as_u64, s2.finished ++ [node]⟩,
        by simp only [dfsVisit]; rw [hfold], ?_⟩
      have hdrop : s2.stack.dropLast = s.stack := by
        rw [hs2stack]
        simp
      refine ⟨⟨?_, ?_, ?_, ?_, ?_, ?_, ?_, ?_⟩, ?_, ?_, ?_, ?_, ?_, ?_⟩
      · intro q
        simp only [hmGet_hmInsert]
        by_cases hq : node = q
        · simp [hq] at hnodeKeys ⊢
          exact hq ▸ hnodeKeys
        · simpa [hq] using hpost.inv.colorDom q
      · exact hmInsert_keys_nodup _ _ _ hpost.inv.colorKeysNodup
      · intro q
        simp only [hmGet_hmInsert, hdrop]
        by_cases hq : node = q
        · subst hq
          simp only [if_pos rfl]
          constructor
          · intro h
            exact absurd (Option.some.inj h) (by simp)
          · intro h
            exact absurd h hnstack
        · rw [if_neg hq, hpost.inv.grayStack q, hs2stack]
          have hq' : ¬ q = node := fun h => hq h.symm
          simp [hq']
      · rw [hdrop]
        exact hinv.stackNodup
      · rw [hdrop]
        exact hinv.stackChain
      · intro q
        simp only [hmGet_hmInsert]
        by_cases hq : node = q
        · subst hq
          simp
        · rw [if_neg hq, hpost.inv.blackFin q]
          have hq' : ¬ q = node := fun h => hq h.symm
          simp [hq']
      · simpa [List.nodup_append] using ⟨hpost.inv.finNodup, fun h => hnfin2 h⟩
      · intro u v hu he hv
        rcases List.mem_append.mp hu with hu2 | hu2
        · obtain ⟨hvf, hlt⟩ := hpost.inv.topo u v hu2 he hv
          refine ⟨List.mem_append_left _ hvf, ?_⟩
          rw [List.indexOf_append_of_mem hvf, List.indexOf_append_of_mem hu2]
          exact hlt
        · have hu3 : u = node := by simpa using hu2
          subst hu3
          have hbl : hmGet s2.color v = some Color.black := by
            rcases hpost.covered v he with h1 | h1
            · exact absurd hv h1
            · exact h1
          have hvf : v ∈ s2.finished := (hpost.inv.blackFin v).mp hbl
          refine ⟨List.mem_append_left _ hvf, ?_⟩
          rw [List.indexOf_append_of_mem hvf,
            List.indexOf_append_of_not_mem hnfin2]
          have hl := List.indexOf_lt_length.mpr hvf
          simp only [List.indexOf_cons_self]
          omega
      · exact hdrop
      · simp [hmGet_hmInsert]
      · intro q hq
        have hqstack : q ∈ s.stack := (hinv.grayStack q).mp hq
        have hqn : ¬ node = q := fun h => hnstack (h ▸ hqstack)
        have h1 : hmGet (hmInsert s.color node Color.gray) q =
            some Color.gray := by
          rw [hmGet_hmInsert, if_neg hqn]
          exact hq
        have h2 := hpost.grayPres q h1
        rw [hmGet_hmInsert, if_neg hqn]
        exact h2
      · intro q hq
        have hqn : ¬ node = q := by
          intro h
          rw [← h, hwhite] at hq
          exact absurd (Option.some.inj hq) (by simp)
        have h1 : hmGet (hmInsert s.color node Color.gray) q =
            some Color.black := by
          rw [hmGet_hmInsert, if_neg hqn]
          exact hq
        have h2 := hpost.blackPres q h1
        rw [hmGet_hmInsert, if_neg hqn]
        exact h2
      · intro q hq
        rw [hmGet_hmInsert] at hq
        by_cases hqn : node = q
        · rw [if_pos hqn] at hq
          exact absurd (Option.some.inj hq) (by simp)
        · rw [if_neg hqn] at hq
          have h1 := hpost.whiteBack q hq
          rw [hmGet_hmInsert, if_neg hqn] at h1
          exact h1
      · have heq : wcount (hmInsert s2.color node Color.black) =
            wcount s2.color :=
          wcount_insert_of_nonwhite Color.black Color.gray (by simp) (by simp)
            hnodegray2 hpost.inv.colorKeysNodup
        have hle := hpost.wle
        dsimp only at hle heq hw1 ⊢
        omega

termination_by fuel _ _ => (fuel, 0)

/-- Correctness of one pass over a successor list during `dfs_visit`. -/
theorem dfsFold_spec (adj : List (QId × List QId)) (allKeys : List QId) :
    ∀ (fuel : Nat) (neis : List QId) (node : QId) (base : List QId)
      (s : DfsSt),
      wcount s.color < fuel →
      DfsInv adj allKeys s →
      s.stack = base ++ [node] →
      (∀ x ∈ neis, hasEdge adj node x) →
      (∃ s' c, neis.foldl (neighborStep (dfsVisit adj fuel) node) (s, none) =
          (s', some c) ∧ hasCycle adj) ∨
      (∃ s', neis.foldl (neighborStep (dfsVisit adj fuel) node) (s, none) =
          (s', none) ∧ FoldPost adj allKeys neis s s')
  | fuel, [], node, base, s, _, hinv, _, _ => by
    right
    exact ⟨s, rfl, ⟨hinv, rfl, fun q h => h, fun q h => h, fun q h => h,
      le_refl _, fun x hx => absurd hx (by simp)⟩⟩
  | fuel, nei :: rest, node, base, s, hfuel, hinv, hstack, hedges => by
    have hnei : hasEdge adj node nei := hedges nei (by simp)
    simp only [List.foldl_cons]
    cases hc : hmGet s.color nei with
    | none =>
      have hstep : neighborStep (dfsVisit adj fuel) node (s, none) nei =
          (s, none) := by
        simp [neighborStep, hc]
      rw [hstep]
      have hnk : nei ∉ allKeys := by
        intro hm
        have := (hinv.colorDom nei).mpr hm
        rw [hc] at this
        simp at this
      rcases dfsFold_spec adj allKeys fuel rest node base s hfuel hinv hstack
          (fun x hx => hedges x (by simp [hx])) with
        ⟨s', c, hf, hcyc⟩ | ⟨s', hf, hp⟩
      · exact .inl ⟨s', c, hf, hcyc⟩
      · refine .inr ⟨s', hf, ⟨hp.inv, hp.stackEq, hp.grayPres, hp.blackPres,
          hp.whiteBack, hp.wle, ?_⟩⟩
        intro x hx
        rcases List.mem_cons.mp hx with rfl | hx'
        · exact .inl hnk
        · exact hp.covered x hx'
    | some c0 =>
      cases c0 with
      | white =>
        have hstep : neighborStep (dfsVisit adj fuel) node (s, none) nei =
            dfsVisit adj fuel nei s := by
          simp [neighborStep, hc]
        rw [hstep]
        have hchain : isEChain adj (s.stack ++ [nei]) := by
          rw [hstack]
          exact isEChain_snoc adj nei base node (hstack ▸ hinv.stackChain) hnei
        rcases dfsVisit_spec adj allKeys fuel nei s hfuel hinv hc hchain with
          ⟨s', c, hv, hcyc⟩ | ⟨s', hv, hvp⟩
        · rw [hv, foldl_neighborStep_some]
          exact .inl ⟨s', c, rfl, hcyc⟩
        · rw [hv]
          have hf' : wcount s'.color < fuel := lt_trans hvp.wlt hfuel
          rcases dfsFold_spec adj allKeys fuel rest node base s' hf' hvp.inv
              (hvp.stackEq.trans hstack)
              (fun x hx => hedges x (by simp [hx])) with
            ⟨s'', c, hf, hcyc⟩ | ⟨s'', hf, hp⟩
          · exact .inl ⟨s'', c, hf, hcyc⟩
          · refine .inr ⟨s'', hf, ⟨hp.inv, hp.stackEq.trans hvp.stackEq,
              fun q h => hp.grayPres q (hvp.grayPres q h),
              fun q h => hp.blackPres q (hvp.blackPres q h),
              fun q h => hvp.whiteBack q (hp.whiteBack q h),
              le_trans hp.wle (le_of_lt hvp.wlt), ?_⟩⟩
            intro x hx
            rcases List.mem_cons.mp hx with rfl | hx'
            · exact .inr (hp.blackPres x hvp.nodeBlack)
            · exact hp.covered x hx'
      | gray =>
        have hmem : nei ∈ s.stack := (hinv.grayStack nei).mp hc
        have hcyc : hasCycle adj := by
          refine ⟨nei, ?_⟩
          have hch : isEChain adj (base ++ [node]) := hstack ▸ hinv.stackChain
          rcases isEChain_mem_transGen adj base node nei hch
              (hstack ▸ hmem) with rfl | ht
          · exact Relation.TransGen.single hnei
          · exact Relation.TransGen.tail ht hnei
        cases hp : hmGet s.pos nei.as_u64 with
        | none =>
          have hstep : neighborStep (dfsVisit adj fuel) node (s, none) nei =
              (s, some [nei, node]) := by
            simp [neighborStep, hc, hp]
          rw [hstep, foldl_neighborStep_some]
          exact .inl ⟨s, [nei, node], rfl, hcyc⟩
        | some start =>
          have hstep : neighborStep (dfsVisit adj fuel) node (s, none) nei =
              (s, some (s.stack.drop start)) := by
            simp [neighborStep, hc, hp]
          rw [hstep, foldl_neighborStep_some]
          exact .inl ⟨s, s.stack.drop start, rfl, hcyc⟩
      | black =>
        have hstep : neighborStep (dfsVisit adj fuel) node (s, none) nei =
            (s, none) := by
          simp [neighborStep, hc]
        rw [hstep]
        rcases dfsFold_spec adj allKeys fuel rest node base s hfuel hinv hstack
            (fun x hx => hedges x (by simp [hx])) with
          ⟨s', c, hf, hcyc⟩ | ⟨s', hf, hp⟩
        · exact .inl ⟨s', c, hf, hcyc⟩
        · refine .inr ⟨s', hf, ⟨hp.inv, hp.stackEq, hp.grayPres, hp.blackPres,
            hp.whiteBack, hp.wle, ?_⟩⟩
          intro x hx
          rcases List.mem_cons.mp hx with rfl | hx'
          · exact .inr (hp.blackPres x hc)
          · exact hp.covered x hx'
termination_by fuel neis _ _ _ => (fuel, neis.length + 1)
end

/-- Correctness of the top-level DFS loop, started with an empty stack:
either a reported cycle really exists, or afterwards every listed key is
black (or unknown), black nodes are preserved, and the invariant holds. -/
theorem dfsAll_spec (adj : List (QId × List QId)) (allKeys : List QId)
    (fuel : Nat) :
    ∀ (ks : List QId) (s : DfsSt),
      wcount s.color < fuel →
      DfsInv adj allKeys s →
      s.stack = [] →
      (∃ s' c, dfsAll adj fuel ks s = (s', some c) ∧ hasCycle adj) ∨
      (∃ s', dfsAll adj fuel ks s = (s', none) ∧ DfsInv adj allKeys s' ∧
        s'.stack = [] ∧
        (∀ q, hmGet s.color q = some Color.black →
          hmGet s'.color q = some Color.black) ∧
        ∀ k ∈ ks, hmGet s'.color k = some Color.black ∨ k ∉ allKeys)
  | [], s, _, hinv, hstack =>
    .inr ⟨s, rfl, hinv, hstack, fun q h => h, fun k hk => absurd hk (by simp)⟩
  | k :: ks, s, hfuel, hinv, hstack => by
    simp only [dfsAll]
    cases hc : hmGet s.color k with
    | none =>
      have hnk : k ∉ allKeys := by
        intro hm
        have := (hinv.colorDom k).mpr hm
        rw [hc] at this
        simp at this
      rcases dfsAll_spec adj allKeys fuel ks s hfuel hinv hstack with
        ⟨s', c, hf, hcyc⟩ | ⟨s', hf, hinv', hstack', hbp, hdone⟩
      · exact .inl ⟨s', c, hf, hcyc⟩
      · refine .inr ⟨s', hf, hinv', hstack', hbp, ?_⟩
        intro x hx
        rcases List.mem_cons.mp hx with rfl | hx'
        · exact .inr hnk
        · exact hdone x hx'
    | some c0 =>
      cases c0 with
      | white =>
        have hchain : isEChain adj (s.stack ++ [k]) := by
          rw [hstack]
          trivial
        rcases dfsVisit_spec adj allKeys fuel k s hfuel hinv hc hchain with
          ⟨s', c, hv, hcyc⟩ | ⟨s', hv, hvp⟩
        · rw [hv]
          exact .inl ⟨s', c, rfl, hcyc⟩
        · rw [hv]
          have hf' : wcount s'.color < fuel := lt_trans hvp.wlt hfuel
          rcases dfsAll_spec adj allKeys fuel ks s' hf' hvp.inv
              (hvp.stackEq.trans hstack) with
            ⟨s'', c, hf, hcyc⟩ | ⟨s'', hf, hinv', hstack', hbp, hdone⟩
          · exact .inl ⟨s'', c, hf, hcyc⟩
          · refine .inr ⟨s'', hf, hinv', hstack',
              fun q h => hbp q (hvp.blackPres q h), ?_⟩
            intro x hx
            rcases List.mem_cons.mp hx with rfl | hx'
            · exact .inl (hbp x hvp.nodeBlack)
            · exact hdone x hx'
      | gray =>
        have hmem : k ∈ s.stack := (hinv.grayStack k).mp hc
        rw [hstack] at hmem
        simp at hmem
      | black =>
        rcases dfsAll_spec adj allKeys fuel ks s hfuel hinv hstack with
          ⟨s', c, hf, hcyc⟩ | ⟨s', hf, hinv', hstack', hbp, hdone⟩
        · exact .inl ⟨s', c, hf, hcyc⟩
        · refine .inr ⟨s', hf, hinv', hstack', hbp, ?_⟩
          intro x hx
          rcases List.mem_cons.mp hx with rfl | hx'
          · exact .inl (hbp x hc)
          · exact hdone x hx'

/-- An edge source always has an adjacency entry. -/
theorem hasEdge_isSome {adj : List (QId × List QId)} {w v : QId}
    (h : hasEdge adj w v) : (hmGet adj w).isSome := by
  unfold hasEdge at h
  cases hw : hmGet adj w with
  | none => rw [hw] at h; simp at h
  | some l => simp

/-- A first step of a transitive chain. -/
theorem transGen_first_edge {adj : List (QId × List QId)} {a b : QId}
    (h : Relation.TransGen (hasEdge adj) a b) : ∃ x, hasEdge adj a x := by
  induction h with
  | single h1 => exact ⟨_, h1⟩
  | tail _ _ ih => exact ih

/-- When every key is finished and the topological invariant holds, the
adjacency has no directed cycle. -/
theorem no_cycle_of_topo (adj : List (QId × List QId)) (allKeys : List QId)
    (s : DfsSt) (hinv : DfsInv adj allKeys s)
    (adjDom : ∀ q : QId, (hmGet adj q).isSome → q ∈ allKeys)
    (hall : ∀ k ∈ allKeys, k ∈ s.finished) :
    ¬ hasCycle adj := by
  rintro ⟨q, hq⟩
  have aux : ∀ u v : QId, Relation.TransGen (hasEdge adj) u v →
      u ∈ s.finished → v ∈ allKeys →
      v ∈ s.finished ∧ s.finished.indexOf v < s.finished.indexOf u := by
    intro u v ht
    induction ht with
    | single h1 =>
      intro hu hv
      exact hinv.topo u _ hu h1 hv
    | tail hws hwv ih =>
      intro hu hv
      rename_i w v2
      have hwkeys : w ∈ allKeys := adjDom w (hasEdge_isSome hwv)
      obtain ⟨hwfin, hlt⟩ := ih hu hwkeys
      obtain ⟨hvf, hlt2⟩ := hinv.topo w v2 hwfin hwv hv
      exact ⟨hvf, lt_trans hlt2 hlt⟩
  obtain ⟨x, hx⟩ := transGen_first_edge hq
  have hqkeys : q ∈ allKeys := adjDom q (hasEdge_isSome hx)
  have hqfin : q ∈ s.finished := hall q hqkeys
  obtain ⟨-, hlt⟩ := aux q q hq hqfin hqkeys
  exact absurd hlt (lt_irrefl _)

/-- The initial DFS state over the quest keys satisfies the invariant. -/
theorem initial_DfsInv (adj : List (QId × List QId))
    (quests : List (QId × Quest)) :
    DfsInv adj (quests.map Prod.fst)
      ⟨initColor quests, [], [], []⟩ := by
  refine ⟨?_, ?_, ?_, ?_, ?_, ?_, ?_, ?_⟩
  · intro q
    rw [initColor_lookup]
    by_cases h : q ∈ quests.map Prod.fst <;> simp [h]
  · exact initColor_keys_nodup quests
  · intro q
    rw [initColor_lookup]
    by_cases h : q ∈ quests.map Prod.fst <;> simp [h]
  · exact List.nodup_nil
  · trivial
  · intro q
    rw [initColor_lookup]
    by_cases h : q ∈ quests.map Prod.fst <;> simp [h]
  · exact List.nodup_nil
  · intro u v hu
    simp at hu

/-- The DFS of `compute_importance_scores` errors exactly on a cyclic
adjacency. -/
theorem dfsAll_compute_spec (db : QuestDatabase) :
    (∃ sf c, dfsAll (buildGraph db.quests).1 (db.quests.length + 1)
        (db.quests.map Prod.fst) ⟨initColor db.quests, [], [], []⟩ =
          (sf, some c) ∧ hasCycle (buildGraph db.quests).1) ∨
    (∃ sf, dfsAll (buildGraph db.quests).1 (db.quests.length + 1)
        (db.quests.map Prod.fst) ⟨initColor db.quests, [], [], []⟩ =
          (sf, none) ∧ ¬ hasCycle (buildGraph db.quests).1) := by
  have hfuel : wcount (initColor db.quests) < db.quests.length + 1 := by
    have h1 := wcount_le_length (initColor db.quests)
    have h2 := initColor_length_le db.quests
    omega
  rcases dfsAll_spec (buildGraph db.quests).1 (db.quests.map Prod.fst)
      (db.quests.length + 1) (db.quests.map Prod.fst)
      ⟨initColor db.quests, [], [], []⟩ hfuel
      (initial_DfsInv _ db.quests) rfl with
    ⟨sf, c, hf, hcyc⟩ | ⟨sf, hf, hinvf, hstackf, _, hdone⟩
  · exact .inl ⟨sf, c, hf, hcyc⟩
  · refine .inr ⟨sf, hf, ?_⟩
    refine no_cycle_of_topo _ (db.quests.map Prod.fst) sf hinvf
      (fun q h => buildGraph_adjDom db.quests q h) ?_
    intro k hk
    rcases hdone k hk with h1 | h1
    · exact (hinvf.blackFin k).mp h1
    · exact absurd hk h1


/-- When the DFS reports a cycle, `compute_importance_scores` returns
`CycleDetected` with that cycle. -/
theorem compute_cycle_err (lnF : ℚ → ℚ) (db : QuestDatabase) (alpha : ℚ)
    (ul nm : Bool) (halpha : 0 ≤ alpha ∧ alpha ≤ 1) (sf : DfsSt)
    (c : List QId)
    (hf : dfsAll (buildGraph db.quests).1 (db.quests.length + 1)
      (db.quests.map Prod.fst) ⟨initColor db.quests, [], [], []⟩ =
        (sf, some c)) :
    compute_importance_scores lnF db alpha ul nm =
      .error (.cycleDetected c) := by
  simp only [compute_importance_scores, if_neg (not_not_intro halpha)]
  rcases hbg : buildGraph db.quests with ⟨adj, deps⟩
  rw [hbg] at hf
  dsimp only at hf ⊢
  rw [hf]

/-- When the DFS terminates without a cycle, `compute_importance_scores`
succeeds. -/
theorem compute_ok_of_dfs_none (lnF : ℚ → ℚ) (db : QuestDatabase)
    (alpha : ℚ) (ul nm : Bool) (halpha : 0 ≤ alpha ∧ alpha ≤ 1) (sf : DfsSt)
    (hf : dfsAll (buildGraph db.quests).1 (db.quests.length + 1)
      (db.quests.map Prod.fst) ⟨initColor db.quests, [], [], []⟩ =
        (sf, none)) :
    ∃ res, compute_importance_scores lnF db alpha ul nm = .ok res := by
  simp only [compute_importance_scores, if_neg (not_not_intro halpha)]
  rcases hbg : buildGraph db.quests with ⟨adj, deps⟩
  rw [hbg] at hf
  dsimp only at hf ⊢
  rw [hf]
  dsimp only
  cases nm with
  | false =>
    rw [if_neg Bool.false_ne_true]
    exact ⟨_, rfl⟩
  | true =>
    rw [if_pos rfl]
    split
    · exact ⟨_, rfl⟩
    · split
      · exact ⟨_, rfl⟩
      · exact ⟨_, rfl⟩

/-- The quest 3-cycle of the C7 example: `(0,1)` requires `(0,3)`, `(0,2)`
requires `(0,1)`, `(0,3)` requires `(0,2)`. -/
def cyc3Db : QuestDatabase :=
  ⟨none,
   [(⟨1⟩, ⟨⟨1⟩, none, [], [], [⟨3⟩], [⟨3⟩], []⟩),
    (⟨2⟩, ⟨⟨2⟩, none, [], [], [⟨1⟩], [⟨1⟩], []⟩),
    (⟨3⟩, ⟨⟨3⟩, none, [], [], [⟨2⟩], [⟨2⟩], []⟩)], [], []⟩

unseal Rat.add Rat.mul in
/-- C7: `compute_importance_scores` fails exactly when `alpha` is outside
`[0, 1]` (with `AlphaOutOfRange`) or the constructed prerequisite adjacency
(XOR quests contributing no edges) has a directed cycle (with
`CycleDetected`); on the 3-cycle example it returns `CycleDetected` whose
cycle list meets `\x7bA, B, C\x7d`. -/
theorem C7_theorem :
    (∀ (lnF : ℚ → ℚ) (db : QuestDatabase) (alpha : ℚ) (ul nm : Bool),
      ((∃ e, compute_importance_scores lnF db alpha ul nm = .error e) ↔
        (¬ (0 ≤ alpha ∧ alpha ≤ 1) ∨ hasCycle (buildGraph db.quests).1)) ∧
      (¬ (0 ≤ alpha ∧ alpha ≤ 1) →
        compute_importance_scores lnF db alpha ul nm =
          .error (.alphaOutOfRange alpha)) ∧
      (∀ e, compute_importance_scores lnF db alpha ul nm = .error e →
        e = .alphaOutOfRange alpha ∨ ∃ c, e = .cycleDetected c)) ∧
    (compute_importance_scores id cyc3Db (mkRat 1 4) false true =
      .error (.cycleDetected [⟨1⟩, ⟨3⟩, ⟨2⟩]) ∧
      (⟨1⟩ : QId) ∈ ([⟨1⟩, ⟨3⟩, ⟨2⟩] : List QId)) := by
  constructor
  · intro lnF db alpha ul nm
    by_cases halpha : 0 ≤ alpha ∧ alpha ≤ 1
    · rcases dfsAll_compute_spec db with ⟨sf, c, hf, hcyc⟩ | ⟨sf, hf, hnocyc⟩
      · have herr := compute_cycle_err lnF db alpha ul nm halpha sf c hf
        refine ⟨⟨fun _ => .inr hcyc, fun _ => ⟨_, herr⟩⟩, ?_, ?_⟩
        · intro hbad
          exact absurd halpha hbad
        · intro e he
          rw [herr] at he
          exact .inr ⟨c, (Except.error.inj he).symm⟩
      · obtain ⟨res, hok⟩ := compute_ok_of_dfs_none lnF db alpha ul nm
          halpha sf hf
        refine ⟨⟨?_, ?_⟩, ?_, ?_⟩
        · rintro ⟨e, he⟩
          rw [hok] at he
          exact absurd he (by simp)
        · rintro (hbad | hcyc)
          · exact absurd halpha hbad
          · exact absurd hcyc hnocyc
        · intro hbad
          exact absurd halpha hbad
        · intro e he
          rw [hok] at he
          exact absurd he (by simp)
    · have herr : compute_importance_scores lnF db alpha ul nm =
          .error (.alphaOutOfRange alpha) := by
        simp only [compute_importance_scores, if_pos halpha]
      refine ⟨⟨fun _ => .inl halpha, fun _ => ⟨_, herr⟩⟩, fun _ => herr, ?_⟩
      intro e he
      rw [herr] at he
      exact .inl (Except.error.inj he).symm
  · exact ⟨by decide, by decide⟩

unseal Rat.add Rat.mul in
/-- C7, witness: the error classification applied to the concrete error the
3-cycle database produces. -/
theorem C7_witness :
    (.cycleDetected [⟨1⟩, ⟨3⟩, ⟨2⟩] : PErr) =
      .alphaOutOfRange (mkRat 1 4) ∨
    ∃ c, (.cycleDetected [(⟨1⟩ : QId), ⟨3⟩, ⟨2⟩] : PErr) =
      .cycleDetected c :=
  (C7_theorem.1 id cyc3Db (mkRat 1 4) false true).2.2
    (.cycleDetected [⟨1⟩, ⟨3⟩, ⟨2⟩]) (by decide)


end BQ
